import Mathlib

/-!
Verification development for the descriptor resolution engine
(`tank/descriptor/io_descriptor/base.py`).

The Python source is shallowly embedded below:

* the version pattern matcher `IODescriptorBase._find_latest_tag_by_pattern`
  (nested-dict version trie, regex pattern validation, greedy descent);
* the identity codec `dict_from_uri` / `uri_from_dict` (including models of
  the Python 2.7 standard library `urlparse.urlparse`, `cgi.parse_qs` and
  `urllib.unquote` on which the source relies);
* the cache-path probing `get_path` / `exists_local` and the manifest cache
  `get_manifest` / `ensure_local`, with the filesystem and the provider made
  explicit parameters.

Machine integers do not occur (Python ints are unbounded); Python exceptions
are modelled with `Except`.  Character-level work is done on `List Char`
(`String.data`) so that all definitions evaluate by `decide`.
-/

namespace TkCore

/-! ### Python helpers: `int(...)` and character-list splitting -/

/-- Value of a decimal digit character. -/
def digitVal (c : Char) : Nat := c.toNat - '0'.toNat

/-- Read a nonempty all-digit character list as a natural number
(the digit body accepted by Python `int`). -/
def readNatDigits (l : List Char) : Option Nat :=
  if l ≠ [] ∧ l.all (·.isDigit) then
    some (l.foldl (fun a c => a * 10 + digitVal c) 0)
  else none

/-- Model of Python 2 `int(s)` on a string given as a character list:
an optional sign followed by a nonempty run of decimal digits.
(Python additionally tolerates surrounding whitespace; that tolerance is
irrelevant to every claim and is not modelled.) -/
def pyIntChars (l : List Char) : Option Int :=
  match l with
  | '-' :: rest => (readNatDigits rest).map (fun n => -(n : Int))
  | '+' :: rest => (readNatDigits rest).map (fun n => (n : Int))
  | _ => (readNatDigits l).map (fun n => (n : Int))

/-- Python `s.split(sep)` for a one-character separator, on character lists.
Always returns at least one (possibly empty) piece. -/
def splitOnChar (sep : Char) : List Char → List (List Char)
  | [] => [[]]
  | c :: cs =>
    if c = sep then [] :: splitOnChar sep cs
    else
      match splitOnChar sep cs with
      | [] => [[c]]
      | h :: t => (c :: h) :: t

/-! ### Tag parsing (`base.py` lines 197–207)

`version_split = map(int, version_num[1:].split("."))` — the first character
is dropped unconditionally (it is *not* checked to be `'v'`); a parse error
or fewer than three components skips the tag. -/

/-- `map(int, pieces)`: convert every piece with `int`, failing (raising,
in the source, where the exception is then caught) as soon as one piece
does not convert. -/
def mapIntList : List (List Char) → Option (List Int)
  | [] => some []
  | piece :: rest =>
    match pyIntChars piece with
    | none => none
    | some v =>
      match mapIntList rest with
      | none => none
      | some vs => some (v :: vs)

/-- Parse one version-number string exactly as the source does: drop the
first character, split on `"."`, convert every piece with `int`; reject
(i.e. skip) when a piece fails to convert or fewer than three integer
components result. -/
def parseTag (s : String) : Option (List Int) :=
  match mapIntList (splitOnChar '.' (s.data.drop 1)) with
  | none => none
  | some version_split =>
    if version_split.length < 3 then none else some version_split

/-! ### The version trie (`base.py` lines 209–232)

The nested Python dictionaries keyed by integers are embedded as a rose tree
with association-list children. -/

inductive VTrie : Type where
  | node (children : List (Int × VTrie)) : VTrie
deriving Inhabited

def VTrie.children : VTrie → List (Int × VTrie)
  | .node cs => cs

/-- Association-list lookup (Python `current[number]` / `number in current`). -/
def lookupKey : List (Int × VTrie) → Int → Option VTrie
  | [], _ => none
  | (k, v) :: rest, q => if k = q then some v else lookupKey rest q

/-- Replace the binding of `k` (or append it): the effect of
`current[number] = ...` on one dictionary level. -/
def setKey : List (Int × VTrie) → Int → VTrie → List (Int × VTrie)
  | [], k, v => [(k, v)]
  | (k', v') :: rest, k, v =>
    if k' = k then (k, v) :: rest else (k', v') :: setKey rest k v

/-- Insert one parsed version path into the trie: the
`for number in version_split: ...` loop of the source. -/
def insertPath : VTrie → List Int → VTrie
  | t, [] => t
  | t, k :: ks =>
    let sub := match lookupKey t.children k with
               | some c => c
               | none => VTrie.node []
    VTrie.node (setKey t.children k (insertPath sub ks))

/-- Build the `versions` dictionary from the input tag list
(unparseable tags are skipped). -/
def buildVersions (version_numbers : List String) : VTrie :=
  version_numbers.foldl
    (fun t v =>
      match parseTag v with
      | none => t
      | some p => insertPath t p)
    (VTrie.node [])

/-- `max(current.keys())` on a nonempty dictionary level (the source also
writes `max(current.keys(), key=int)`; the keys are integers, so both
compute the numeric maximum). -/
def maxKeyList : List (Int × VTrie) → Int
  | [] => 0
  | (k, _) :: rest => rest.foldl (fun m p => max m p.1) k

/-! ### Pattern validation (`base.py` lines 236–248)

The source uses three regular expressions; each is embedded as a direct
recognizer with the same match semantics (including the unescaped `.` of
`"^v([0-9]+|x)(.([0-9]+|x)){2,}$"`, which matches any character). -/

/-- All ways to consume one pattern segment `([0-9]+|x)` from the front:
the suffixes remaining after a nonempty digit run prefix, or after a
leading `'x'`. -/
def segTails (cs : List Char) : List (List Char) :=
  let run := (cs.takeWhile (·.isDigit)).length
  let digitOpts := (List.range run).map (fun k => cs.drop (k + 1))
  let xOpt := match cs with
              | 'x' :: rest => [rest]
              | _ => []
  digitOpts ++ xOpt

/-- Recognize `(.([0-9]+|x)){count,}$` where `.` matches any character
(backtracking over segment lengths; `fuel` bounds the recursion and is
always sufficient at the call site since every group consumes characters). -/
def tailOk : Nat → List Char → Nat → Bool
  | 0, _, _ => false
  | fuel + 1, cs, count =>
    (decide (2 ≤ count) && cs.isEmpty) ||
      (match cs with
       | [] => false
       | _ :: rest => (segTails rest).any (fun tl => tailOk fuel tl (count + 1)))

/-- Recognizer for `re.match("^v([0-9]+|x)(.([0-9]+|x)){2,}$", pattern)`. -/
def grammarMatch (pattern : String) : Bool :=
  match pattern.data with
  | 'v' :: rest => (segTails rest).any (fun tl => tailOk (rest.length + 1) tl 0)
  | _ => false

/-- Character class `[0-9\.]`. -/
def digitDot (c : Char) : Bool := c.isDigit || c = '.'

/-- Character class `[x\.]`. -/
def xDot (c : Char) : Bool := c = 'x' || c = '.'

/-- Recognizer for `re.match("^v[0-9\\.]+[x\\.]+[0-9\\.]+$", pattern)`:
after the leading `v`, a nonempty run of digits/dots, then a nonempty run
of `x`/dots, then a nonempty run of digits/dots reaching the end. -/
def mixedMatch (pattern : String) : Bool :=
  match pattern.data with
  | 'v' :: rest =>
    let n := rest.length
    (List.range (n + 1)).any (fun a =>
      (List.range (n + 1)).any (fun b =>
        decide (1 ≤ a) && decide (1 ≤ b) && decide (a + b < n) &&
        (rest.take a).all digitDot &&
        ((rest.drop a).take b).all xDot &&
        (rest.drop (a + b)).all digitDot))
  | _ => false

/-- `re.findall("([0-9]+|x)", pattern)`: maximal digit runs and single
`x` characters, in order.  `run` accumulates the current digit run in
reverse. -/
def segsAux (run : List Char) : List Char → List String
  | [] => if run = [] then [] else [String.mk run.reverse]
  | c :: cs =>
    if c.isDigit then segsAux (c :: run) cs
    else
      let flushed := if run = [] then [] else [String.mk run.reverse]
      if c = 'x' then flushed ++ "x" :: segsAux [] cs
      else flushed ++ segsAux [] cs

def findSegs (pattern : String) : List String :=
  segsAux [] pattern.data

/-- Dot-joined segments, used to state whole families of version
patterns (`v<seg>.<seg>...`). -/
def dotJoin : List (List Char) → List Char
  | [] => []
  | [s] => s
  | s :: rest => s ++ '.' :: dotJoin rest

/-! ### The matcher itself (`base.py` lines 174–277) -/

/-- The failure modes of `_find_latest_tag_by_pattern`.  The source raises
`TankDescriptorError` from three sites; the spec names the pattern-grammar
failures `InvalidVersionPattern` and the missing-concrete-segment failure
`NoMatchingVersion` (whose message lists all input tags, carried here as a
field).  `valueError` models the uncaught Python `ValueError` of
`max(current.keys(), key=int)` on an empty level, and `typeError` the
uncaught `None + str` failure (unreachable for grammar-valid patterns). -/
inductive VErr : Type where
  | invalidVersionPattern (pattern : String)
  | noMatchingVersion (version_numbers : List String) (pattern : String)
  | valueError
  | typeError
deriving DecidableEq, Repr

/-- `int(seg)` for a segment produced by `findSegs` (always a digit run
there, so the `none` fallback value is never used). -/
def segToInt (s : String) : Int :=
  match pyIntChars s.data with
  | some k => k
  | none => 0

/-- `version_to_use = "v%d" % d` / `version_to_use += ".%d" % d`. -/
def appendSeg (acc : Option String) (d : Int) : Option String :=
  match acc with
  | none => some ("v" ++ toString d)
  | some s => some (s ++ "." ++ toString d)

/-- The `for version_digit in version_split:` loop: a wildcard resolves to
the maximum key of the current level (`ValueError` when the level is
empty), then the (possibly substituted) digit must be a key of the current
level or the call fails with `NoMatchingVersion`. -/
def descendSegs (version_numbers : List String) (pattern : String) :
    VTrie → List String → Option String → Except VErr (VTrie × Option String)
  | t, [], acc => .ok (t, acc)
  | t, seg :: rest, acc =>
    let dRes : Except VErr Int :=
      if seg = "x" then
        match t.children with
        | [] => .error .valueError
        | c :: cs => .ok (maxKeyList (c :: cs))
      else .ok (segToInt seg)
    match dRes with
    | .error e => .error e
    | .ok d =>
      match lookupKey t.children d with
      | none => .error (.noMatchingVersion version_numbers pattern)
      | some sub => descendSegs version_numbers pattern sub rest (appendSeg acc d)

/-- The `while len(current):` forked-version descent: repeatedly take the
maximum key.  The loop terminates because each step moves to a proper
subtrie; `fuel` bounds the iterations and the caller passes a bound larger
than any possible trie depth, so the fuel-exhaustion branch is
unreachable. -/
def forkDescendF : Nat → VTrie → Option String → Except VErr (Option String)
  | _, .node [], acc => .ok acc
  | 0, .node (_ :: _), acc => .ok acc
  | fuel + 1, .node (c :: cs), acc =>
    let d := maxKeyList (c :: cs)
    match lookupKey (c :: cs) d with
    | none => .ok acc
    | some sub =>
      match acc with
      | none => .error .typeError
      | some s => forkDescendF fuel sub (some (s ++ "." ++ toString d))

/-- Total length of the input tag strings; strictly larger than the length
of any parsed version path, hence a sufficient fork-descent fuel. -/
def totalLen (version_numbers : List String) : Nat :=
  version_numbers.foldl (fun a s => a + s.length) 0

/-- `IODescriptorBase._find_latest_tag_by_pattern` (`base.py` 174–277):
build the version trie from the tags, validate the pattern against the
grammar regex, reject mixed wildcard-then-digit patterns, descend the trie
by pattern segments, then keep descending into forked sub-versions. -/
def findLatestTagByPattern (version_numbers : List String) (pattern : String) :
    Except VErr (Option String) :=
  let versions := buildVersions version_numbers
  if ¬ grammarMatch pattern then .error (.invalidVersionPattern pattern)
  else
    let version_split := findSegs pattern
    if version_split.contains "x" && mixedMatch pattern then
      .error (.invalidVersionPattern pattern)
    else
      match descendSegs version_numbers pattern versions version_split none with
      | .error e => .error e
      | .ok (current, version_to_use) =>
        forkDescendF (totalLen version_numbers + 1) current version_to_use

/-! ### Identity codec (`base.py` lines 342–458)

`dict_from_uri` relies on the Python 2.7 standard library: `urlparse.urlparse`,
`cgi.parse_qs` (an alias of `urlparse.parse_qs`) and, through it,
`urllib.unquote`.  These are modelled below at the character level. -/

/-- The characters allowed in a URL scheme (`urlparse.scheme_chars`). -/
def schemeChar (c : Char) : Bool :=
  c.isAlpha || c.isDigit || c = '+' || c = '-' || c = '.'

/-- Split a character list at the first occurrence of `sep`
(Python `s.split(sep, 1)` when it yields two pieces). -/
def splitFirstAt (sep : Char) : List Char → Option (List Char × List Char)
  | [] => none
  | c :: cs =>
    if c = sep then some ([], cs)
    else
      match splitFirstAt sep cs with
      | none => none
      | some (a, b) => some (c :: a, b)

/-- Result of `urlparse.urlparse` (the source reads `.scheme`, `.path`
and `.query`). -/
structure ParseResult where
  scheme : List Char
  netloc : List Char
  path : List Char
  params : List Char
  query : List Char
  fragment : List Char

/-- Schemes for which `urlparse` splits `;`-parameters
(`urlparse.uses_params`); `sgtk` is not among them. -/
def usesParams : List (List Char) :=
  ["ftp".data, "hdl".data, "prospero".data, "http".data, "imap".data,
   "https".data, "shttp".data, "rtsp".data, "rtspu".data, "sip".data,
   "sips".data, "mms".data, [], "sftp".data, "tel".data]

/-- `urlparse._splitparams`. -/
def splitParams (url : List Char) : List Char × List Char :=
  if url.contains '/' then
    let afterSlash := (url.reverse.takeWhile (· ≠ '/')).reverse
    if afterSlash.contains ';' then
      let keep := url.take (url.length - afterSlash.length)
      match splitFirstAt ';' afterSlash with
      | some (a, b) => (keep ++ a, b)
      | none => (url, [])
    else (url, [])
  else
    match splitFirstAt ';' url with
    | some (a, b) => (a, b)
    | none => (url, [])

/-- Scheme detection of `urlparse.urlsplit`: `i = url.find(':')`,
`if i > 0`, the scheme-characters check, and the rest-is-a-port-number
heuristic. -/
def schemeSplit (cs : List Char) : List Char × List Char :=
  match splitFirstAt ':' cs with
  | some (before, after) =>
    if before ≠ [] ∧ before.all schemeChar ∧
        (after = [] ∨ after.any (fun c => ¬ c.isDigit)) then
      (before.map Char.toLower, after)
    else ([], cs)
  | none => ([], cs)

/-- Netloc extraction of `urlparse.urlsplit`: `if url[:2] == '//'`; the
`ValueError` raised for an unbalanced IPv6 bracket is surfaced as
`none`. -/
def netlocSplit (u1 : List Char) : Option (List Char × List Char) :=
  match u1 with
  | '/' :: '/' :: body =>
    let nl := body.takeWhile (fun c => c ≠ '/' ∧ c ≠ '?' ∧ c ≠ '#')
    if (nl.contains '[' ∧ ¬ nl.contains ']') ∨
        (nl.contains ']' ∧ ¬ nl.contains '[') then none
    else some (nl, body.drop nl.length)
  | _ => some ([], u1)

/-- Fragment split of `urlparse.urlsplit` (with `allow_fragments=True`). -/
def fragSplit (u2 : List Char) : List Char × List Char :=
  match splitFirstAt '#' u2 with
  | some (a, b) => (a, b)
  | none => (u2, [])

/-- Query split of `urlparse.urlsplit`. -/
def querySplit (u3 : List Char) : List Char × List Char :=
  match splitFirstAt '?' u3 with
  | some (a, b) => (a, b)
  | none => (u3, [])

/-- Parameter split of `urlparse.urlparse` on top of `urlsplit`. -/
def paramsSplit (scheme u4 : List Char) : List Char × List Char :=
  if usesParams.contains scheme ∧ u4.contains ';' then splitParams u4
  else (u4, [])

/-- Model of Python 2.7 `urlparse.urlparse(url)` (with the default empty
scheme and `allow_fragments=True`). -/
def pyUrlparse (url : String) : Option ParseResult :=
  let (scheme, u1) := schemeSplit url.data
  match netlocSplit u1 with
  | none => none
  | some (netloc, u2) =>
    let (u3, fragment) := fragSplit u2
    let (u4, query) := querySplit u3
    let (path, params) := paramsSplit scheme u4
    some ⟨scheme, netloc, path, params, query, fragment⟩

/-- `s.replace(old, new)` for single characters. -/
def pyReplace (old new : Char) (l : List Char) : List Char :=
  l.map (fun c => if c = old then new else c)

/-- Value of a hexadecimal digit. -/
def hexVal (c : Char) : Option Nat :=
  if c.isDigit then some (digitVal c)
  else if 'a' ≤ c ∧ c ≤ 'f' then some (c.toNat - 'a'.toNat + 10)
  else if 'A' ≤ c ∧ c ≤ 'F' then some (c.toNat - 'A'.toNat + 10)
  else none

/-- One piece of `urllib.unquote` after splitting on `'%'`: decode a
two-hex-digit prefix, or restore the `'%'` on failure. -/
def unquotePiece (item : List Char) : List Char :=
  match item with
  | a :: b :: rest =>
    match hexVal a, hexVal b with
    | some ha, some hb => Char.ofNat (16 * ha + hb) :: rest
    | _, _ => '%' :: a :: b :: rest
  | _ => '%' :: item

/-- Model of `urllib.unquote` on character lists. -/
def pyUnquote (l : List Char) : List Char :=
  match splitOnChar '%' l with
  | [] => []
  | h :: t => h ++ (t.map unquotePiece).flatten

/-- Model of `urlparse.parse_qsl(qs)` with the default
`keep_blank_values=0`, `strict_parsing=0`: split the query string on `&`
and `;`, skip empty chunks and chunks without `=`, split each chunk at the
first `=`, drop pairs with an empty value, and unquote name and value
after replacing `+` with a space.  `qslPair` is the loop body handling one
`name_value` chunk. -/
def qslPair (name_value : List Char) : Option (List Char × List Char) :=
  if name_value = [] then none
  else
    match splitFirstAt '=' name_value with
    | none => none
    | some (n, v) =>
      if v = [] then none
      else some (pyUnquote (pyReplace '+' ' ' n), pyUnquote (pyReplace '+' ' ' v))

def parseQsl (qs : List Char) : List (List Char × List Char) :=
  (((splitOnChar '&' qs).map (splitOnChar ';')).flatten).filterMap qslPair

/-- Append `v` to the value list of `k` (`parse_qs` building its result
dictionary). -/
def addQsPair : List (List Char × List (List Char)) → List Char → List Char →
    List (List Char × List (List Char))
  | [], k, v => [(k, [v])]
  | (k', vs) :: rest, k, v =>
    if k' = k then (k', vs ++ [v]) :: rest else (k', vs) :: addQsPair rest k v

/-- Model of `cgi.parse_qs(qs)`: the pairs of `parse_qsl` grouped into a
dictionary from name to list of values. -/
def parseQs (qs : List Char) : List (List Char × List (List Char)) :=
  (parseQsl qs).foldl (fun d p => addQsPair d p.1 p.2) []

/-- Failures of the identity codec: the `TankDescriptorError` raises of
`dict_from_uri` / `uri_from_dict` (spec taxonomy `MalformedDescriptor`),
and the uncaught Python `ValueError` of the two-element tuple unpacking
`(path, query) = parsed_uri.path.split("?")`. -/
inductive UriErr : Type where
  | malformedDescriptor
  | pyValueError
deriving DecidableEq, Repr

/-- Characters that survive the query-string round trip: none of
`& = % + ; #`. -/
def qsSafe (c : Char) : Bool :=
  !(c == '&' || c == '=' || c == '%' || c == '+' || c == ';' || c == '#')

/-- Characters of a `type` value that survive the path round trip: none of
`: ? #`. -/
def typeSafe (c : Char) : Bool :=
  !(c == ':' || c == '?' || c == '#')

/-- Ordinary association-list lookup on string keys (Python `dict[k]`). -/
def lookupStr : List (String × String) → String → Option String
  | [], _ => none
  | (k, v) :: rest, q => if k = q then some v else lookupStr rest q

/-- `descriptor_dict[param] = value`: replace an existing binding or
append a new one. -/
def dictInsert : List (String × String) → String → String → List (String × String)
  | [], k, v => [(k, v)]
  | (k', v') :: rest, k, v =>
    if k' = k then (k, v) :: rest else (k', v') :: dictInsert rest k v

/-- `IODescriptorBase.dict_from_uri` (`base.py` 342–421).  The constants
are `DESCRIPTOR_URI_PATH_SCHEME = "sgtk"`,
`DESCRIPTOR_URI_SEPARATOR = ":"`, `DESCRIPTOR_URI_PATH_PREFIX =
"descriptor"` (the error messages of the source spell out
`sgtk:descriptor`). -/
def dictFromUri (uri : String) : Except UriErr (List (String × String)) :=
  match pyUrlparse uri with
  | none => .error .pyValueError
  | some parsed_uri =>
    if parsed_uri.scheme ≠ "sgtk".data then .error .malformedDescriptor
    else
      let pathQuery : Except UriErr (List Char × List Char) :=
        if parsed_uri.query = [] then
          -- `(path, query) = parsed_uri.path.split("?")`: tuple unpacking
          -- fails with `ValueError` unless the split has exactly two pieces
          match splitOnChar '?' parsed_uri.path with
          | [a, b] => .ok (a, b)
          | _ => .error .pyValueError
        else .ok (parsed_uri.path, parsed_uri.query)
      match pathQuery with
      | .error e => .error e
      | .ok (path, query) =>
        match splitOnChar ':' path with
        | [p0, p1] =>
          if p0 ≠ "descriptor".data then .error .malformedDescriptor
          else
            let groups := parseQs query
            if groups.any (fun g => 1 < g.2.length) then .error .malformedDescriptor
            else
              .ok (groups.foldl
                (fun d g => dictInsert d (String.mk g.1) (String.mk (g.2.headD [])))
                [("type", String.mk p1)])
        | _ => .error .malformedDescriptor

/-- Python `sep.join(chunks)`. -/
def joinSep (sep : String) : List String → String
  | [] => ""
  | [s] => s
  | s :: rest => s ++ sep ++ joinSep sep rest

/-- `IODescriptorBase.uri_from_dict` (`base.py` 429–458). -/
def uriFromDict (descriptor_dict : List (String × String)) : Except UriErr String :=
  match lookupStr descriptor_dict "type" with
  | none => .error .malformedDescriptor
  | some ty =>
    let uri := joinSep ":" ["sgtk", "descriptor", ty]
    let qs_chunks := descriptor_dict.filterMap
      (fun kv => if kv.1 = "type" then none else some (kv.1 ++ "=" ++ kv.2))
    let qs := joinSep "&" qs_chunks
    .ok (uri ++ "?" ++ qs)

/-- The entries of a descriptor mapping other than the `type` key — the
pairs serialized into the query string by `uri_from_dict`. -/
def dropType : List (String × String) → List (String × String)
  | [] => []
  | kv :: rest => if kv.1 = "type" then dropType rest else kv :: dropType rest

/-! ### Cache paths, filesystem, provider, manifest cache
(`base.py` lines 112–172, 299–340, 500–525)

The filesystem is an explicit association from paths to file contents; a
file either parses as YAML to a Python value (possibly `None`, e.g. for an
empty file) or fails to parse.  The provider contract supplies the resolved
candidate cache paths (`_get_cache_paths` is abstract in the base class)
and the materialization effect (`download_local`). -/

/-- A Python value as stored in `self.__manifest_data`: the constructor
`vnone` is Python `None`, which is both the initial sentinel of the
manifest cache and a possible result of `yaml.load` (an empty file). -/
inductive PyVal : Type where
  | vnone
  | vdata (n : Nat)
deriving DecidableEq, Repr

inductive FileContent : Type where
  | yamlOk (v : PyVal)
  | yamlBad
deriving DecidableEq, Repr

structure World where
  files : List (String × FileContent)
deriving DecidableEq

def World.lookup (w : World) : List (String × FileContent) → String → Option FileContent
  | [], _ => none
  | (p, c) :: rest, q => if p = q then some c else w.lookup rest q

def World.read (w : World) (p : String) : Option FileContent :=
  w.lookup w.files p

/-- `os.path.exists`. -/
def pathExists (w : World) (p : String) : Bool :=
  (w.read p).isSome

/-- `os.path.join` of an absolute directory and a relative name (POSIX). -/
def pjoin (a b : String) : String := a ++ "/" ++ b

/-- `constants.BUNDLE_METADATA_FILE`. -/
def BUNDLE_METADATA_FILE : String := "info.yml"

/-- The provider contract: resolved candidate cache paths (the result of
the concrete subclass's `_get_cache_paths`) and the materialization effect
of `download_local` on the filesystem. -/
structure Provider where
  cachePaths : List String
  download : World → World

/-- `IODescriptorBase.get_path` (`base.py` 514–525): the first candidate
cache path whose `info.yml` exists, else `None`. -/
def getPath (P : Provider) (w : World) : Option String :=
  P.cachePaths.find? (fun path => pathExists w (pjoin path BUNDLE_METADATA_FILE))

/-- `IODescriptorBase.exists_local` (`base.py` 508–512). -/
def existsLocal (P : Provider) (w : World) : Bool :=
  (getPath P w).isSome

/-- `IODescriptorBase.ensure_local` (`base.py` 500–506); the second
component counts the `download_local` invocations the call performed. -/
def ensureLocal (P : Provider) (w : World) : World × Nat :=
  if existsLocal P w then (w, 0) else (P.download w, 1)

/-- `ensure_local` called `n` times in sequence, with the total count of
`download_local` invocations. -/
def ensureLocalN (P : Provider) : Nat → World → World × Nat
  | 0, w => (w, 0)
  | n + 1, w =>
    let (w1, c1) := ensureLocal P w
    let (w2, c2) := ensureLocalN P n w1
    (w2, c1 + c2)

/-- The per-instance mutable state of a descriptor: `self.__manifest_data`
(initialized to `None` in `__init__`). -/
structure DState where
  manifestData : PyVal
deriving DecidableEq, Repr

def initialDState : DState := ⟨.vnone⟩

/-- Failures of `get_manifest`: the metadata file missing after the
download (`TankDescriptorError`, spec taxonomy `MetadataMissing`), an
unparseable metadata file (`TankDescriptorError "Cannot load ..."`), and
the uncaught `os.path.join(None, ...)` failure when `get_path` returns
`None` after a download that did not materialize anything. -/
inductive ManifestErr : Type where
  | metadataMissing (path : String)
  | cannotLoad (path : String)
  | attributeError
deriving DecidableEq, Repr

/-- `IODescriptorBase.get_manifest` (`base.py` 299–340): serve the cached
manifest when `self.__manifest_data` is not `None`; otherwise download if
not local, locate the bundle, require and parse `info.yml`, cache the
parse result and return it.  The result triple is (returned value or
raised error, descriptor state after the call, filesystem after the
call). -/
def downloadIfMissing (P : Provider) (w : World) : World :=
  if existsLocal P w then w else P.download w

def getManifest (P : Provider) (w : World) (s : DState) :
    Except ManifestErr PyVal × DState × World :=
  if s.manifestData ≠ .vnone then (.ok s.manifestData, s, w)
  else
    match getPath P (downloadIfMissing P w) with
    | none => (.error .attributeError, s, downloadIfMissing P w)
    | some bundle_root =>
      match (downloadIfMissing P w).read (pjoin bundle_root BUNDLE_METADATA_FILE) with
      | none =>
        (.error (.metadataMissing (pjoin bundle_root BUNDLE_METADATA_FILE)), s,
         downloadIfMissing P w)
      | some .yamlBad =>
        (.error (.cannotLoad (pjoin bundle_root BUNDLE_METADATA_FILE)), s,
         downloadIfMissing P w)
      | some (.yamlOk metadata) => (.ok metadata, ⟨metadata⟩, downloadIfMissing P w)

/-! ### Legacy cache folders (`base.py` lines 112–172) and the candidate
sequence of the Cache Path Resolver -/

/-- `Descriptor.APP` / `ENGINE` / `FRAMEWORK` (the source raises
`RuntimeError` for any other value; the closed enumeration makes that
branch unrepresentable). -/
inductive BundleType : Type where
  | app
  | engine
  | framework
deriving DecidableEq, Repr

/-- The `legacy_dir` dispatch of `_get_legacy_bundle_install_folder`. -/
def legacyDirFor : BundleType → String
  | .app => "apps"
  | .engine => "engines"
  | .framework => "frameworks"

/-- `IODescriptorBase._get_legacy_bundle_install_folder` (`base.py`
112–172): `<root>/<legacy_dir>/<descriptor_name>/<bundle_name>/<bundle_version>`. -/
def getLegacyBundleInstallFolder (descriptor_name install_cache_root : String)
    (bundle_type : BundleType) (bundle_name bundle_version : String) : String :=
  pjoin (pjoin (pjoin (pjoin install_cache_root (legacyDirFor bundle_type))
    descriptor_name) bundle_name) bundle_version

/-- Modelled from the spec: `_get_cache_paths` is abstract in
`IODescriptorBase` (`base.py` 531–540) and its concrete implementations
are not part of the sources at hand.  Spec §4.2: for each root in order
(primary, then fallbacks) produce the new-style path
`root/type/name/version` followed by the legacy-style path
`root/<legacy-dir-for(type)>/type/name/version`, where the legacy path is
built by `_get_legacy_bundle_install_folder`. -/
def cachePathsFor (bundle_type : BundleType) (ty name version : String)
    (primary : String) (fallbacks : List String) : List String :=
  (primary :: fallbacks).flatMap (fun root =>
    [pjoin (pjoin (pjoin root ty) name) version,
     getLegacyBundleInstallFolder ty root bundle_type name version])

/-! ### Specification-side definitions for the version pattern matcher

These follow the (amended) wording of the spec: the matcher returns the
numerically greatest parsed tag extending the concrete pattern prefix,
where a tag with extra forked components is greater than its base. -/

/-- `startsWithL p l`: the component list `p` is a leading part of `l`. -/
def startsWithL : List Int → List Int → Bool
  | [], _ => true
  | _ :: _, [] => false
  | a :: as, b :: bs => a == b && startsWithL as bs

/-- Strict version order on parsed component lists: componentwise, with a
base version smaller than any of its forked extensions (`v1.2.3 <
v1.2.3.1`). -/
def tagLtB : List Int → List Int → Bool
  | [], [] => false
  | [], _ :: _ => true
  | _ :: _, [] => false
  | a :: as, b :: bs => decide (a < b) || (a == b && tagLtB as bs)

/-- Greatest element of a nonempty list under `tagLtB`. -/
def maxTagF (m0 : List Int) (ms : List (List Int)) : List Int :=
  ms.foldl (fun m p => if tagLtB m p then p else m) m0

/-- Specification-side description of `_find_latest_tag_by_pattern` for a
pattern whose segments are the concrete components `ds` followed by `w`
wildcards: among the tags that parse, keep those extending `ds`; if none
remain the call fails (`NoMatchingVersion`, or the empty-`max` `ValueError`
when the pattern is all wildcards); otherwise the numerically greatest
such tag is returned, unless it has fewer components than the pattern, in
which case a wildcard hits an empty level (`ValueError`). -/
def specLatestTag (version_numbers : List String) (pattern : String)
    (ds : List Int) (w : Nat) : Except VErr (Option String) :=
  let paths := version_numbers.filterMap parseTag
  match paths.filter (fun p => startsWithL ds p) with
  | [] =>
    if ds.isEmpty then .error .valueError
    else .error (.noMatchingVersion version_numbers pattern)
  | m0 :: ms =>
    let m := maxTagF m0 ms
    if m.length < ds.length + w then .error .valueError
    else .ok (m.foldl appendSeg none)

/-- Trie membership: `memT t q` holds when `q` is the path of a node of
`t` (all dictionary levels along `q` exist). -/
def memT : VTrie → List Int → Bool
  | _, [] => true
  | t, k :: ks =>
    match lookupKey t.children k with
    | none => false
    | some c => memT c ks

/-- `t` represents exactly the prefixes of the paths in `S`. -/
def Rep (t : VTrie) (S : List (List Int)) : Prop :=
  ∀ q, memT t q = true ↔ (q = [] ∨ ∃ s ∈ S, startsWithL q s = true)

/-- The tails, under key `d`, of a path collection: the paths of the
subtrie reached through `d`. -/
def subPaths (d : Int) (S : List (List Int)) : List (List Int) :=
  S.filterMap (fun s =>
    match s with
    | [] => none
    | a :: tl => if a = d then some tl else none)

/-- `Greedy t g`: `g` is the path traced by always taking the maximum key
until reaching a leaf — the trajectory of the `while len(current):` loop
(and of wildcard resolution, which takes the same maxima). -/
inductive Greedy : VTrie → List Int → Prop where
  | leaf : Greedy (.node []) []
  | step (c : Int × VTrie) (cs : List (Int × VTrie)) (sub : VTrie) (g : List Int) :
      lookupKey (c :: cs) (maxKeyList (c :: cs)) = some sub →
      Greedy sub g →
      Greedy (.node (c :: cs)) (maxKeyList (c :: cs) :: g)

/-! ## Shared helper lemmas -/

/-- The matcher raises `InvalidVersionPattern` whenever the grammar regex
rejects the pattern or the mixed wildcard-then-digit check fires,
independently of the tag set. -/
theorem findLatest_invalid_aux (version_numbers : List String) (p : String)
    (h : grammarMatch p = false ∨
         ((findSegs p).contains "x" && mixedMatch p) = true) :
    findLatestTagByPattern version_numbers p =
      .error (.invalidVersionPattern p) := by
  by_cases hg : grammarMatch p = true
  · rcases h with h | h
    · rw [hg] at h; cases h
    · simp only [findLatestTagByPattern]
      rw [if_neg (by simp [hg]), if_pos h]
  · simp only [findLatestTagByPattern]
    rw [if_pos (by simpa using hg)]

/-! ### The version order and its maxima -/

theorem tagLt_irrefl (a : List Int) : tagLtB a a = false := by
  induction a with
  | nil => rfl
  | cons x xs ih => simp [tagLtB, ih]

theorem tagLt_trans {a b c : List Int} (hab : tagLtB a b = true)
    (hbc : tagLtB b c = true) : tagLtB a c = true := by
  induction a generalizing b c with
  | nil =>
    cases b with
    | nil => cases hab
    | cons y ys =>
      cases c with
      | nil => cases hbc
      | cons z zs => rfl
  | cons x xs ih =>
    cases b with
    | nil => cases hab
    | cons y ys =>
      cases c with
      | nil => cases hbc
      | cons z zs =>
        simp only [tagLtB, Bool.or_eq_true, Bool.and_eq_true,
          decide_eq_true_eq, beq_iff_eq] at hab hbc ⊢
        rcases hab with h1 | ⟨h1, h1'⟩ <;> rcases hbc with h2 | ⟨h2, h2'⟩
        · exact Or.inl (lt_trans h1 h2)
        · exact Or.inl (h2 ▸ h1)
        · exact Or.inl (h1 ▸ h2)
        · exact Or.inr ⟨h1.trans h2, ih h1' h2'⟩

theorem tagLt_total (a b : List Int) :
    tagLtB a b = true ∨ tagLtB b a = true ∨ a = b := by
  induction a generalizing b with
  | nil =>
    cases b with
    | nil => exact Or.inr (Or.inr rfl)
    | cons y ys => exact Or.inl rfl
  | cons x xs ih =>
    cases b with
    | nil => exact Or.inr (Or.inl rfl)
    | cons y ys =>
      rcases lt_trichotomy x y with h | h | h
      · exact Or.inl (by simp [tagLtB, h])
      · rcases ih ys with h2 | h2 | h2
        · exact Or.inl (by simp [tagLtB, h, h2])
        · exact Or.inr (Or.inl (by simp [tagLtB, h, h2]))
        · exact Or.inr (Or.inr (by rw [h, h2]))
      · exact Or.inr (Or.inl (by simp [tagLtB, h]))

theorem tagLt_asymm {a b : List Int} (h : tagLtB a b = true) :
    tagLtB b a = false := by
  by_contra hc
  have hba : tagLtB b a = true := by
    cases hcb : tagLtB b a
    · exact absurd hcb hc
    · rfl
  have := tagLt_trans h hba
  rw [tagLt_irrefl] at this
  cases this

theorem tagLt_cons_same (d : Int) (a b : List Int) :
    tagLtB (d :: a) (d :: b) = tagLtB a b := by
  simp [tagLtB]

/-- If `M` is not below `a` and `b` is not above `a`, then `M` is not
below `b`. -/
theorem tagLt_ge_trans {M a b : List Int} (hMa : tagLtB M a = false)
    (hba : tagLtB b a = true ∨ b = a) : tagLtB M b = false := by
  cases hMb : tagLtB M b
  · rfl
  · exfalso
    rcases hba with h | h
    · have h2 := tagLt_trans hMb h
      rw [h2] at hMa
      exact Bool.noConfusion hMa
    · subst h
      rw [hMb] at hMa
      exact Bool.noConfusion hMa

theorem maxTagF_mem (m0 : List Int) (ms : List (List Int)) :
    maxTagF m0 ms ∈ m0 :: ms := by
  induction ms generalizing m0 with
  | nil => simp [maxTagF]
  | cons p ms ih =>
    have step : maxTagF m0 (p :: ms) = maxTagF (if tagLtB m0 p then p else m0) ms := rfl
    rw [step]
    rcases List.mem_cons.mp (ih (if tagLtB m0 p then p else m0)) with h | h
    · rw [h]
      by_cases hc : tagLtB m0 p = true
      · rw [if_pos hc]
        exact List.mem_cons_of_mem _ (List.mem_cons_self _ _)
      · rw [if_neg hc]
        exact List.mem_cons_self _ _
    · exact List.mem_cons_of_mem _ (List.mem_cons_of_mem _ h)

theorem maxTagF_ge (m0 : List Int) (ms : List (List Int)) :
    ∀ s ∈ m0 :: ms, tagLtB (maxTagF m0 ms) s = false := by
  induction ms generalizing m0 with
  | nil =>
    intro s hs
    rcases List.mem_cons.mp hs with h | h
    · rw [h]; exact tagLt_irrefl m0
    · cases h
  | cons p ms ih =>
    intro s hs
    have step : maxTagF m0 (p :: ms) = maxTagF (if tagLtB m0 p then p else m0) ms := rfl
    rw [step]
    by_cases hc : tagLtB m0 p = true
    · rw [if_pos hc]
      have hMp : tagLtB (maxTagF p ms) p = false := ih p _ (List.mem_cons_self _ _)
      have hMm0 : tagLtB (maxTagF p ms) m0 = false := tagLt_ge_trans hMp (Or.inl hc)
      rcases List.mem_cons.mp hs with h | h
      · rw [h]; exact hMm0
      · rcases List.mem_cons.mp h with h2 | h2
        · rw [h2]; exact hMp
        · exact ih p s (List.mem_cons_of_mem _ h2)
    · rw [if_neg hc]
      have hcf : tagLtB m0 p = false := by
        revert hc; cases tagLtB m0 p <;> simp
      have hMm0 : tagLtB (maxTagF m0 ms) m0 = false := ih m0 _ (List.mem_cons_self _ _)
      have hMp : tagLtB (maxTagF m0 ms) p = false := by
        cases hMu : tagLtB (maxTagF m0 ms) p
        · rfl
        · exfalso
          rcases tagLt_total p m0 with h3 | h3 | h3
          · have h4 := tagLt_trans hMu h3
            rw [h4] at hMm0
            exact Bool.noConfusion hMm0
          · rw [h3] at hcf
            exact Bool.noConfusion hcf
          · rw [h3] at hMu
            rw [hMu] at hMm0
            exact Bool.noConfusion hMm0
      rcases List.mem_cons.mp hs with h | h
      · rw [h]; exact hMm0
      · rcases List.mem_cons.mp h with h2 | h2
        · rw [h2]; exact hMp
        · exact ih m0 s (List.mem_cons_of_mem _ h2)

theorem maxTagF_unique (m0 : List Int) (ms : List (List Int)) (u : List Int)
    (hmem : u ∈ m0 :: ms) (hub : ∀ s ∈ m0 :: ms, tagLtB u s = false) :
    u = maxTagF m0 ms := by
  have h1 : tagLtB u (maxTagF m0 ms) = false := hub _ (maxTagF_mem m0 ms)
  have h2 : tagLtB (maxTagF m0 ms) u = false := maxTagF_ge m0 ms u hmem
  rcases tagLt_total u (maxTagF m0 ms) with h | h | h
  · rw [h] at h1; cases h1
  · rw [h] at h2; cases h2
  · exact h

theorem maxTagF_map_cons (d : Int) (m0 : List Int) (ms : List (List Int)) :
    maxTagF (d :: m0) (ms.map (d :: ·)) = d :: maxTagF m0 ms := by
  induction ms generalizing m0 with
  | nil => rfl
  | cons p ms ih =>
    have stepL : maxTagF (d :: m0) ((p :: ms).map (d :: ·)) =
        maxTagF (if tagLtB (d :: m0) (d :: p) then d :: p else d :: m0)
          (ms.map (d :: ·)) := rfl
    have stepR : maxTagF m0 (p :: ms) = maxTagF (if tagLtB m0 p then p else m0) ms := rfl
    rw [stepL, stepR, tagLt_cons_same]
    by_cases hc : tagLtB m0 p = true
    · rw [if_pos hc, if_pos hc, ih]
    · rw [if_neg hc, if_neg hc, ih]

/-! ### Trie lemmas: insertion builds exactly the prefixes of the parsed
paths -/

theorem startsWithL_nil (p : List Int) : startsWithL [] p = true := rfl

theorem startsWithL_cons (d : Int) (ds p : List Int) :
    startsWithL (d :: ds) p = true ↔
      ∃ tl, p = d :: tl ∧ startsWithL ds tl = true := by
  cases p with
  | nil => simp [startsWithL]
  | cons a tl =>
    simp only [startsWithL, Bool.and_eq_true, beq_iff_eq]
    constructor
    · rintro ⟨rfl, h2⟩
      exact ⟨tl, rfl, h2⟩
    · rintro ⟨tl', h1, h2⟩
      injection h1 with h1a h1b
      subst h1a; subst h1b
      exact ⟨rfl, h2⟩

theorem subPaths_mem {d : Int} {S : List (List Int)} {tl : List Int} :
    tl ∈ subPaths d S ↔ (d :: tl) ∈ S := by
  simp only [subPaths, List.mem_filterMap]
  constructor
  · rintro ⟨s, hs, hf⟩
    cases s with
    | nil => cases hf
    | cons a tl2 =>
      have hf2 : (if a = d then some tl2 else none) = some tl := hf
      by_cases h : a = d
      · rw [if_pos h] at hf2
        injection hf2 with hf2
        subst hf2; subst h
        exact hs
      · rw [if_neg h] at hf2
        cases hf2
  · intro h
    exact ⟨d :: tl, h, by simp⟩

theorem lookupKey_setKey_self (cs : List (Int × VTrie)) (k : Int) (v : VTrie) :
    lookupKey (setKey cs k v) k = some v := by
  induction cs with
  | nil => simp [setKey, lookupKey]
  | cons p rest ih =>
    obtain ⟨k', v'⟩ := p
    by_cases h : k' = k
    · simp [setKey, h, lookupKey]
    · simp [setKey, h, lookupKey, ih]

theorem lookupKey_setKey_ne (cs : List (Int × VTrie)) (k q : Int) (v : VTrie)
    (h : q ≠ k) : lookupKey (setKey cs k v) q = lookupKey cs q := by
  have hk : ¬ (k = q) := fun hh => h hh.symm
  induction cs with
  | nil => simp [setKey, lookupKey, hk]
  | cons p rest ih =>
    obtain ⟨k', v'⟩ := p
    by_cases h2 : k' = k
    · subst h2
      simp [setKey, lookupKey, hk]
    · simp [setKey, h2, lookupKey, ih]

theorem memT_single (t : VTrie) (d : Int) :
    memT t [d] = (lookupKey t.children d).isSome := by
  rcases h : lookupKey t.children d with - | c
  · simp [memT, h]
  · simp [memT, h]

theorem memT_insert (p : List Int) (t : VTrie) (q : List Int) :
    memT (insertPath t p) q = (memT t q || startsWithL q p) := by
  induction p generalizing t q with
  | nil =>
    cases q with
    | nil => simp [insertPath, memT, startsWithL]
    | cons b bs => simp [insertPath, startsWithL]
  | cons a as ih =>
    cases q with
    | nil => simp [memT]
    | cons b bs =>
      have hL : memT (insertPath t (a :: as)) (b :: bs) =
          (match lookupKey (setKey t.children a
              (insertPath (match lookupKey t.children a with
                           | some c => c
                           | none => VTrie.node []) as)) b with
           | none => false
           | some c => memT c bs) := rfl
      rw [hL]
      by_cases hba : b = a
      · subst hba
        rw [lookupKey_setKey_self]
        show memT (insertPath (match lookupKey t.children b with
                               | some c => c
                               | none => VTrie.node []) as) bs = _
        rw [ih]
        have hsw : startsWithL (b :: bs) (b :: as) = startsWithL bs as := by
          simp [startsWithL]
        rw [hsw]
        rcases hl : lookupKey t.children b with - | c
        · have hRm : memT t (b :: bs) = false := by
            simp [memT, hl]
          rw [hRm]
          show (memT (VTrie.node []) bs || startsWithL bs as) = _
          cases bs with
          | nil => simp [memT, startsWithL]
          | cons b' bs' => simp [memT, VTrie.children, lookupKey]
        · have hRm : memT t (b :: bs) = memT c bs := by
            simp [memT, hl]
          rw [hRm]
      · rw [lookupKey_setKey_ne _ _ _ _ hba]
        have hsw : startsWithL (b :: bs) (a :: as) = false := by
          simp [startsWithL, hba]
        rw [hsw]
        have hRm : memT t (b :: bs) =
            (match lookupKey t.children b with
             | none => false
             | some c => memT c bs) := rfl
        rw [hRm]
        simp

theorem Rep_insert {t : VTrie} {S : List (List Int)} (h : Rep t S)
    (p : List Int) : Rep (insertPath t p) (S ++ [p]) := by
  intro q
  rw [memT_insert]
  rw [Bool.or_eq_true, h q]
  simp only [List.mem_append, List.mem_singleton]
  constructor
  · rintro ((h1 | ⟨s, hs, hsw⟩) | h1)
    · exact Or.inl h1
    · exact Or.inr ⟨s, Or.inl hs, hsw⟩
    · exact Or.inr ⟨p, Or.inr rfl, h1⟩
  · rintro (h1 | ⟨s, hs | hs, hsw⟩)
    · exact Or.inl (Or.inl h1)
    · exact Or.inl (Or.inr ⟨s, hs, hsw⟩)
    · subst hs; exact Or.inr hsw

theorem Rep_buildAux (l : List String) : ∀ (t : VTrie) (S : List (List Int)),
    Rep t S →
    Rep (l.foldl
          (fun t v =>
            match parseTag v with
            | none => t
            | some p => insertPath t p) t)
        (S ++ l.filterMap parseTag) := by
  induction l with
  | nil =>
    intro t S h
    simpa using h
  | cons v l ih =>
    intro t S h
    simp only [List.foldl_cons, List.filterMap_cons]
    rcases hv : parseTag v with - | p
    · simpa [hv] using ih t S h
    · have h3 := ih (insertPath t p) (S ++ [p]) (Rep_insert h p)
      simpa [List.append_assoc] using h3

theorem Rep_root (tags : List String) :
    Rep (buildVersions tags) (tags.filterMap parseTag) := by
  have h0 : Rep (VTrie.node []) [] := by
    intro q
    cases q with
    | nil => simp [memT]
    | cons b bs => simp [memT, VTrie.children, lookupKey]
  simpa [buildVersions] using Rep_buildAux tags (VTrie.node []) [] h0

theorem Rep_sub {t : VTrie} {S : List (List Int)} {d : Int} {sub : VTrie}
    (h : Rep t S) (hl : lookupKey t.children d = some sub) :
    Rep sub (subPaths d S) := by
  intro q
  have hmem : memT sub q = memT t (d :: q) := by
    simp [memT, hl]
  rw [hmem, h (d :: q)]
  constructor
  · rintro (h1 | ⟨s, hs, hsw⟩)
    · cases h1
    · rcases (startsWithL_cons d q s).mp hsw with ⟨tl, rfl, hsw2⟩
      exact Or.inr ⟨tl, subPaths_mem.mpr hs, hsw2⟩
  · rintro (h1 | ⟨tl, htl, hsw⟩)
    · subst h1
      have hm : memT t [d] = true := by
        rw [memT_single, hl]; rfl
      rcases (h [d]).mp hm with h2 | h2
      · cases h2
      · exact Or.inr h2
    · exact Or.inr ⟨d :: tl, subPaths_mem.mp htl,
        (startsWithL_cons d q (d :: tl)).mpr ⟨tl, rfl, hsw⟩⟩

/-- If a trie represents only empty paths it is a leaf. -/
theorem node_nil_of_all_nil {t : VTrie} {S : List (List Int)} (h : Rep t S)
    (hS : ∀ s ∈ S, s = []) : t = VTrie.node [] := by
  obtain ⟨cs⟩ := t
  cases cs with
  | nil => rfl
  | cons c rest =>
    exfalso
    obtain ⟨k, v⟩ := c
    have hm : memT (VTrie.node ((k, v) :: rest)) [k] = true := by
      rw [memT_single]
      simp [VTrie.children, lookupKey]
    rcases (h [k]).mp hm with h1 | ⟨s, hs, hsw⟩
    · cases h1
    · cases s with
      | nil => cases hsw
      | cons a tl => exact absurd (hS _ hs) (by simp)

/-- Conversely, a leaf represents only empty paths. -/
theorem all_nil_of_node_nil {S : List (List Int)} (h : Rep (VTrie.node []) S) :
    ∀ s ∈ S, s = [] := by
  intro s hs
  cases s with
  | nil => rfl
  | cons a tl =>
    exfalso
    have hsw : startsWithL [a] (a :: tl) = true := by simp [startsWithL]
    have hm : memT (VTrie.node []) [a] = true :=
      (h [a]).mpr (Or.inr ⟨a :: tl, hs, hsw⟩)
    rw [memT_single] at hm
    simp [VTrie.children, lookupKey] at hm

/-! ### Maximum keys -/

theorem foldl_max_bounds (ks : List Int) (init : Int) :
    init ≤ ks.foldl max init ∧ ∀ k ∈ ks, k ≤ ks.foldl max init := by
  induction ks generalizing init with
  | nil => exact ⟨le_refl _, by simp⟩
  | cons k ks ih =>
    simp only [List.foldl_cons]
    have h1 := ih (max init k)
    refine ⟨le_trans (le_max_left _ _) h1.1, ?_⟩
    intro k' hk'
    rcases List.mem_cons.mp hk' with h | h
    · subst h
      exact le_trans (le_max_right _ _) h1.1
    · exact h1.2 k' h

theorem foldl_max_mem (ks : List Int) (init : Int) :
    ks.foldl max init = init ∨ ks.foldl max init ∈ ks := by
  induction ks generalizing init with
  | nil => exact Or.inl rfl
  | cons k ks ih =>
    rcases ih (max init k) with h | h
    · rcases max_choice init k with h2 | h2
      · exact Or.inl (by rw [List.foldl_cons, h, h2])
      · exact Or.inr (by rw [List.foldl_cons, h, h2]; exact List.mem_cons_self _ _)
    · exact Or.inr (List.mem_cons_of_mem _ h)

theorem maxKeyList_eq_foldl (c : Int × VTrie) (cs : List (Int × VTrie)) :
    maxKeyList (c :: cs) = ((c :: cs).map Prod.fst).foldl max c.1 := by
  obtain ⟨k, v⟩ := c
  simp only [maxKeyList, List.map_cons, List.foldl_cons, max_self]
  rw [List.foldl_map]

theorem lookupKey_isSome_iff (l : List (Int × VTrie)) (q : Int) :
    (lookupKey l q).isSome = true ↔ q ∈ l.map Prod.fst := by
  induction l with
  | nil => simp [lookupKey]
  | cons p rest ih =>
    obtain ⟨k, v⟩ := p
    by_cases h : k = q
    · simp [lookupKey, h]
    · simp only [lookupKey, if_neg h, List.map_cons, List.mem_cons]
      rw [ih]
      constructor
      · exact Or.inr
      · rintro (h2 | h2)
        · exact absurd h2.symm h
        · exact h2

theorem maxKeyList_is_key (c : Int × VTrie) (cs : List (Int × VTrie)) :
    (lookupKey (c :: cs) (maxKeyList (c :: cs))).isSome = true := by
  rw [lookupKey_isSome_iff, maxKeyList_eq_foldl]
  rcases foldl_max_mem ((c :: cs).map Prod.fst) c.1 with h | h
  · rw [h, List.map_cons]
    exact List.mem_cons_self _ _
  · exact h

theorem maxKeyList_ge (c : Int × VTrie) (cs : List (Int × VTrie)) (k : Int)
    (hk : k ∈ (c :: cs).map Prod.fst) : k ≤ maxKeyList (c :: cs) := by
  rw [maxKeyList_eq_foldl]
  exact (foldl_max_bounds ((c :: cs).map Prod.fst) c.1).2 k hk

/-! ### The greedy maximum descent computes the greatest represented path -/

theorem greedy_exists (N : Nat) (t : VTrie) (m0 : List Int)
    (ms : List (List Int)) (hrep : Rep t (m0 :: ms))
    (hbound : ∀ s ∈ m0 :: ms, s.length ≤ N) :
    Greedy t (maxTagF m0 ms) := by
  induction N generalizing t m0 ms with
  | zero =>
    have hnil : ∀ s ∈ m0 :: ms, s = [] := by
      intro s hs
      have hb := hbound s hs
      cases s with
      | nil => rfl
      | cons a tl => simp at hb
    have ht : t = VTrie.node [] := node_nil_of_all_nil hrep hnil
    have hmax : maxTagF m0 ms = [] := hnil _ (maxTagF_mem m0 ms)
    rw [ht, hmax]
    exact Greedy.leaf
  | succ N ih =>
    obtain ⟨cs⟩ := t
    cases cs with
    | nil =>
      have hnil : ∀ s ∈ m0 :: ms, s = [] := all_nil_of_node_nil hrep
      have hmax : maxTagF m0 ms = [] := hnil _ (maxTagF_mem m0 ms)
      rw [hmax]
      exact Greedy.leaf
    | cons c cs' =>
      have hkey := maxKeyList_is_key c cs'
      rcases hl : lookupKey (c :: cs') (maxKeyList (c :: cs')) with - | sub
      · rw [hl] at hkey; cases hkey
      · have hsub : Rep sub (subPaths (maxKeyList (c :: cs')) (m0 :: ms)) :=
          Rep_sub hrep hl
        have hdm : memT (VTrie.node (c :: cs')) [maxKeyList (c :: cs')] = true := by
          rw [memT_single]
          show (lookupKey (c :: cs') (maxKeyList (c :: cs'))).isSome = true
          rw [hl]; rfl
        have hex : ∃ tl, tl ∈ subPaths (maxKeyList (c :: cs')) (m0 :: ms) := by
          rcases (hrep _).mp hdm with h1 | ⟨s, hs, hsw⟩
          · cases h1
          · rcases (startsWithL_cons _ [] s).mp hsw with ⟨tl, rfl, -⟩
            exact ⟨tl, subPaths_mem.mpr hs⟩
        rcases hSd : subPaths (maxKeyList (c :: cs')) (m0 :: ms) with - | ⟨t0, trest⟩
        · rcases hex with ⟨tl, htl⟩
          rw [hSd] at htl
          cases htl
        · rw [hSd] at hsub
          have hbound' : ∀ u ∈ t0 :: trest, u.length ≤ N := by
            intro u hu
            have hmem : (maxKeyList (c :: cs') :: u) ∈ m0 :: ms := by
              rw [← subPaths_mem (d := maxKeyList (c :: cs')), hSd]
              exact hu
            have hb := hbound _ hmem
            simpa using hb
          have hG := ih sub t0 trest hsub hbound'
          have hstep := Greedy.step c cs' sub (maxTagF t0 trest) hl hG
          have hmem : (maxKeyList (c :: cs') :: maxTagF t0 trest) ∈ m0 :: ms := by
            rw [← subPaths_mem (d := maxKeyList (c :: cs')), hSd]
            exact maxTagF_mem t0 trest
          have hub : ∀ s ∈ m0 :: ms,
              tagLtB (maxKeyList (c :: cs') :: maxTagF t0 trest) s = false := by
            intro s hs
            cases s with
            | nil => rfl
            | cons a tl =>
              have hka : memT (VTrie.node (c :: cs')) [a] = true :=
                (hrep [a]).mpr (Or.inr ⟨a :: tl, hs, by simp [startsWithL]⟩)
              rw [memT_single] at hka
              have hamem : a ∈ (c :: cs').map Prod.fst := by
                rw [← lookupKey_isSome_iff]
                exact hka
              have hle : a ≤ maxKeyList (c :: cs') := maxKeyList_ge c cs' a hamem
              by_cases had : a = maxKeyList (c :: cs')
              · subst had
                have htl : tl ∈ t0 :: trest := by
                  rw [← hSd]
                  exact subPaths_mem.mpr hs
                have hge := maxTagF_ge t0 trest tl htl
                simp [tagLtB, hge]
              · have hne2 : ¬ (maxKeyList (c :: cs') = a) := fun hh => had hh.symm
                have hnlt2 : ¬ (maxKeyList (c :: cs') < a) := not_lt.mpr hle
                simp [tagLtB, hnlt2, hne2]
          have huniq := maxTagF_unique m0 ms _ hmem hub
          rw [← huniq]
          exact hstep

/-- Running the forked-version while loop along a greedy path. -/
theorem fork_run {t : VTrie} {g : List Int} (hg : Greedy t g) :
    ∀ fuel : Nat, g.length < fuel → ∀ acc : Option String,
      (g = [] ∨ acc.isSome = true) →
      forkDescendF fuel t acc = .ok (g.foldl appendSeg acc) := by
  induction hg with
  | leaf =>
    intro fuel hfuel acc hacc
    cases fuel with
    | zero => rfl
    | succ f => rfl
  | step c cs sub g hl hsub ih =>
    intro fuel hfuel acc hacc
    rcases hacc with h | h
    · cases h
    · obtain ⟨s, rfl⟩ := Option.isSome_iff_exists.mp h
      cases fuel with
      | zero => simp at hfuel
      | succ f =>
        have hred : forkDescendF (f + 1) (VTrie.node (c :: cs)) (some s) =
            forkDescendF f sub
              (some (s ++ "." ++ toString (maxKeyList (c :: cs)))) := by
          show (match lookupKey (c :: cs) (maxKeyList (c :: cs)) with
                | none => Except.ok (some s)
                | some sub => forkDescendF f sub
                    (some (s ++ "." ++ toString (maxKeyList (c :: cs))))) = _
          rw [hl]
        rw [hred]
        have hfuel' : g.length < f := by
          simp at hfuel
          omega
        rw [ih f hfuel' (some (s ++ "." ++ toString (maxKeyList (c :: cs))))
            (Or.inr rfl)]
        rfl

/-- Running the wildcard segments followed by the forked-version loop:
the wildcard phase follows the same greedy path, failing with the
`max()`-of-empty `ValueError` exactly when the greedy path is shorter
than the number of wildcards. -/
theorem wild_run (version_numbers : List String) (pattern : String) (w : Nat) :
    ∀ (t : VTrie) (g : List Int), Greedy t g →
    ∀ fuel : Nat, g.length < fuel →
    ∀ acc : Option String, (1 ≤ w ∨ acc.isSome = true) →
    (match descendSegs version_numbers pattern t (List.replicate w "x") acc with
     | .error e => Except.error e
     | .ok (t', acc') => forkDescendF fuel t' acc') =
    (if g.length < w then .error .valueError
     else .ok (g.foldl appendSeg acc)) := by
  induction w with
  | zero =>
    intro t g hg fuel hfuel acc hacc
    rcases hacc with h | h
    · exact absurd h (by omega)
    · have hd : descendSegs version_numbers pattern t [] acc = .ok (t, acc) := rfl
      rw [List.replicate, hd]
      show forkDescendF fuel t acc = _
      rw [fork_run hg fuel hfuel acc (Or.inr h), if_neg (by omega)]
  | succ w ih =>
    intro t g hg fuel hfuel acc hacc
    cases hg with
    | leaf =>
      have hd : descendSegs version_numbers pattern (VTrie.node [])
          (List.replicate (w + 1) "x") acc =
          Except.error VErr.valueError := by
        rw [List.replicate_succ]
        rfl
      rw [hd, if_pos (by simp)]
    | step c cs sub g' hl hsub =>
      have hd : descendSegs version_numbers pattern (VTrie.node (c :: cs))
          (List.replicate (w + 1) "x") acc =
          descendSegs version_numbers pattern sub (List.replicate w "x")
            (appendSeg acc (maxKeyList (c :: cs))) := by
        rw [List.replicate_succ]
        show (match lookupKey (c :: cs) (maxKeyList (c :: cs)) with
              | none =>
                (Except.error (VErr.noMatchingVersion version_numbers pattern) :
                  Except VErr (VTrie × Option String))
              | some sub => descendSegs version_numbers pattern sub
                  (List.replicate w "x") (appendSeg acc (maxKeyList (c :: cs)))) = _
        rw [hl]
      rw [hd]
      have happ : (appendSeg acc (maxKeyList (c :: cs))).isSome = true := by
        cases acc <;> rfl
      have hfuel' : g'.length < fuel := by
        simp at hfuel
        omega
      rw [ih sub g' hsub fuel hfuel' _ (Or.inr happ)]
      simp only [List.length_cons, List.foldl_cons]
      by_cases hlen : g'.length < w
      · rw [if_pos hlen, if_pos (by omega)]
      · rw [if_neg hlen, if_neg (by omega)]

/-! ### Length bookkeeping: the total input length bounds every parsed
path, so it is a sufficient fork fuel -/

theorem splitOnChar_ne_nil (sep : Char) (l : List Char) :
    splitOnChar sep l ≠ [] := by
  cases l with
  | nil => simp [splitOnChar]
  | cons c cs =>
    by_cases h : c = sep
    · simp [splitOnChar, h]
    · simp only [splitOnChar, if_neg h]
      rcases hs : splitOnChar sep cs with - | ⟨hd, tl⟩
      · simp
      · simp

theorem splitOnChar_length (sep : Char) (l : List Char) :
    (splitOnChar sep l).length ≤ l.length + 1 := by
  induction l with
  | nil => simp [splitOnChar]
  | cons c cs ih =>
    by_cases h : c = sep
    · simp only [splitOnChar, if_pos h, List.length_cons]
      omega
    · simp only [splitOnChar, if_neg h]
      rcases hs : splitOnChar sep cs with - | ⟨hd, tl⟩
      · exact absurd hs (splitOnChar_ne_nil sep cs)
      · rw [hs] at ih
        simp only [List.length_cons] at ih ⊢
        omega

theorem mapIntList_length (l : List (List Char)) (vs : List Int)
    (h : mapIntList l = some vs) : vs.length = l.length := by
  induction l generalizing vs with
  | nil =>
    injection h with h
    subst h; rfl
  | cons piece rest ih =>
    unfold mapIntList at h
    rcases h1 : pyIntChars piece with - | v
    · rw [h1] at h; cases h
    · rw [h1] at h
      rcases h2 : mapIntList rest with - | vs'
      · rw [h2] at h; cases h
      · rw [h2] at h
        injection h with h
        subst h
        simp [ih vs' h2]

theorem parseTag_length (s : String) (p : List Int)
    (h : parseTag s = some p) : p.length ≤ s.length := by
  unfold parseTag at h
  rcases hm : mapIntList (splitOnChar '.' (s.data.drop 1)) with - | l
  · rw [hm] at h; cases h
  · rw [hm] at h
    have h2 : (if l.length < 3 then none else some l) = some p := h
    by_cases hl : l.length < 3
    · rw [if_pos hl] at h2; cases h2
    · rw [if_neg hl] at h2
      injection h2 with h2
      subst h2
      have h1 := mapIntList_length _ _ hm
      have h2 := splitOnChar_length '.' (s.data.drop 1)
      cases hsd : s.data with
      | nil =>
        rw [hsd] at hm
        cases hm
      | cons c cs =>
        have h3 : (s.data.drop 1).length = cs.length := by rw [hsd]; rfl
        have h4 : s.length = cs.length + 1 := by
          show s.data.length = _
          rw [hsd]; rfl
        rw [h3] at h2
        omega

theorem totalLen_cons (s : String) (l : List String) :
    totalLen (s :: l) = s.length + totalLen l := by
  show List.foldl _ (0 + s.length) l = _
  have haux : ∀ (l : List String) (a b : Nat),
      l.foldl (fun acc t => acc + t.length) (a + b) =
        a + l.foldl (fun acc t => acc + t.length) b := by
    intro l
    induction l with
    | nil => intro a b; rfl
    | cons t ts ih =>
      intro a b
      show List.foldl _ (a + b + t.length) ts = _
      rw [Nat.add_assoc, ih]
      rfl
  have := haux l s.length 0
  simpa [totalLen] using this

theorem totalLen_mem (tags : List String) (s : String) (h : s ∈ tags) :
    s.length ≤ totalLen tags := by
  induction tags with
  | nil => cases h
  | cons t ts ih =>
    rw [totalLen_cons]
    rcases List.mem_cons.mp h with h1 | h1
    · subst h1; omega
    · have := ih h1
      omega

/-! ### Filtering by an extended prefix -/

theorem filter_starts_cons (d : Int) (ds : List Int) (S : List (List Int)) :
    S.filter (fun p => startsWithL (d :: ds) p) =
      ((subPaths d S).filter (fun p => startsWithL ds p)).map (d :: ·) := by
  induction S with
  | nil => rfl
  | cons s S ih =>
    cases s with
    | nil =>
      have h1 : startsWithL (d :: ds) [] = false := rfl
      have h2 : subPaths d ([] :: S) = subPaths d S := rfl
      rw [h2, ← ih]
      simp [List.filter_cons, h1]
    | cons a tl =>
      by_cases had : a = d
      · subst had
        have h2 : subPaths a (( a :: tl) :: S) = tl :: subPaths a S := by
          simp [subPaths, List.filterMap_cons]
        rw [h2]
        have h1 : startsWithL (a :: ds) (a :: tl) = startsWithL ds tl := by
          simp [startsWithL]
        rw [List.filter_cons, List.filter_cons, h1]
        cases hsw : startsWithL ds tl
        · simpa using ih
        · simp [ih]
      · have h1 : startsWithL (d :: ds) (a :: tl) = false := by
          have : ¬ (d = a) := fun hh => had hh.symm
          simp [startsWithL, this]
        have h2 : subPaths d ((a :: tl) :: S) = subPaths d S := by
          simp [subPaths, List.filterMap_cons, had]
        rw [h2, ← ih]
        simp [List.filter_cons, h1]

/-! ### The descent along concrete-then-wildcard segments computes the
specification value -/

theorem descend_spec (version_numbers : List String) (pattern : String) :
    ∀ (dstrs : List String) (w : Nat) (t : VTrie) (S : List (List Int))
      (acc : Option String) (fuel : Nat),
    Rep t S → S ≠ [] → ¬ ("x" ∈ dstrs) →
    (∀ s ∈ S, s.length < fuel) →
    (1 ≤ dstrs.length + w ∨ acc.isSome = true) →
    (match descendSegs version_numbers pattern t
        (dstrs ++ List.replicate w "x") acc with
     | .error e => Except.error e
     | .ok (t', acc') => forkDescendF fuel t' acc') =
    (match S.filter (fun p => startsWithL (dstrs.map segToInt) p) with
     | [] =>
       if (dstrs.map segToInt).isEmpty then Except.error VErr.valueError
       else Except.error (VErr.noMatchingVersion version_numbers pattern)
     | m0 :: ms =>
       if (maxTagF m0 ms).length < (dstrs.map segToInt).length + w then
         Except.error VErr.valueError
       else Except.ok ((maxTagF m0 ms).foldl appendSeg acc)) := by
  intro dstrs
  induction dstrs with
  | nil =>
    intro w t S acc fuel hrep hS hx hfuel hacc
    rcases hSc : S with - | ⟨m0, ms⟩
    · exact absurd hSc hS
    · subst hSc
      have hfilter : (m0 :: ms).filter
          (fun p => startsWithL (([] : List String).map segToInt) p) = m0 :: ms := by
        refine List.filter_eq_self.mpr ?_
        intro a _
        exact startsWithL_nil a
      rw [hfilter]
      have hg : Greedy t (maxTagF m0 ms) :=
        greedy_exists fuel t m0 ms hrep (fun s hs => le_of_lt (hfuel s hs))
      have hflen : (maxTagF m0 ms).length < fuel := hfuel _ (maxTagF_mem m0 ms)
      have hacc2 : 1 ≤ w ∨ acc.isSome = true := by
        rcases hacc with h | h
        · exact Or.inl (by simpa using h)
        · exact Or.inr h
      have hrun := wild_run version_numbers pattern w t (maxTagF m0 ms) hg
        fuel hflen acc hacc2
      rw [List.nil_append, hrun]
      simp only [List.map_nil, List.length_nil, Nat.zero_add]
  | cons d_str rest ih =>
    intro w t S acc fuel hrep hS hx hfuel hacc
    have hxd : ¬ (d_str = "x") := fun hh => hx (hh ▸ List.mem_cons_self _ _)
    have hxrest : ¬ ("x" ∈ rest) := fun hh => hx (List.mem_cons_of_mem _ hh)
    have hstep : ∀ tt : VTrie, descendSegs version_numbers pattern tt
        (d_str :: (rest ++ List.replicate w "x")) acc =
        (match lookupKey tt.children (segToInt d_str) with
         | none =>
           (Except.error (VErr.noMatchingVersion version_numbers pattern) :
             Except VErr (VTrie × Option String))
         | some sub => descendSegs version_numbers pattern sub
             (rest ++ List.replicate w "x")
             (appendSeg acc (segToInt d_str))) := by
      intro tt
      show (match (if d_str = "x" then
                    match tt.children with
                    | [] => Except.error VErr.valueError
                    | c :: cs => Except.ok (maxKeyList (c :: cs))
                  else Except.ok (segToInt d_str)) with
            | Except.error e => Except.error e
            | Except.ok d =>
              match lookupKey tt.children d with
              | none =>
                Except.error (VErr.noMatchingVersion version_numbers pattern)
              | some sub => descendSegs version_numbers pattern sub
                  (rest ++ List.replicate w "x") (appendSeg acc d)) = _
      rw [if_neg hxd]
    rw [List.cons_append, hstep t]
    rcases hlk : lookupKey t.children (segToInt d_str) with - | sub
    · -- concrete segment missing: NoMatchingVersion, and the filter is empty
      have hfilter : S.filter
          (fun p => startsWithL ((d_str :: rest).map segToInt) p) = [] := by
        rw [List.filter_eq_nil_iff]
        intro p hp hcontra
        rw [List.map_cons] at hcontra
        rcases (startsWithL_cons _ _ p).mp hcontra with ⟨tl, rfl, -⟩
        have hm : memT t [segToInt d_str] = true :=
          (hrep _).mpr (Or.inr ⟨_, hp, by simp [startsWithL]⟩)
        rw [memT_single, hlk] at hm
        cases hm
      rw [hfilter]
      simp
    · -- descend into the subtrie
      have hrepsub : Rep sub (subPaths (segToInt d_str) S) := Rep_sub hrep hlk
      have hm : memT t [segToInt d_str] = true := by
        rw [memT_single, hlk]; rfl
      have hSsub : subPaths (segToInt d_str) S ≠ [] := by
        rcases (hrep _).mp hm with h1 | ⟨s, hs, hsw⟩
        · cases h1
        · rcases (startsWithL_cons _ [] s).mp hsw with ⟨tl, rfl, -⟩
          intro hcon
          have := subPaths_mem.mpr hs
          rw [hcon] at this
          cases this
      have hfuelsub : ∀ u ∈ subPaths (segToInt d_str) S, u.length < fuel := by
        intro u hu
        have := hfuel _ (subPaths_mem.mp hu)
        simp at this
        omega
      have haccsub : 1 ≤ rest.length + w ∨
          (appendSeg acc (segToInt d_str)).isSome = true := by
        right
        cases acc <;> rfl
      have hIH := ih w sub (subPaths (segToInt d_str) S)
        (appendSeg acc (segToInt d_str)) fuel hrepsub hSsub hxrest hfuelsub haccsub
      rw [hIH]
      -- lift the inner specification value to the outer one
      have hfc : S.filter (fun p => startsWithL ((d_str :: rest).map segToInt) p) =
          ((subPaths (segToInt d_str) S).filter
            (fun p => startsWithL (rest.map segToInt) p)).map (segToInt d_str :: ·) := by
        rw [List.map_cons]
        exact filter_starts_cons (segToInt d_str) (rest.map segToInt) S
      rw [hfc]
      rcases hinner : (subPaths (segToInt d_str) S).filter
          (fun p => startsWithL (rest.map segToInt) p) with - | ⟨m0, ms⟩
      · -- the inner filter is empty, so rest cannot be empty
        have hrest : rest ≠ [] := by
          intro hcon
          subst hcon
          have hall : (subPaths (segToInt d_str) S).filter
              (fun p => startsWithL (([] : List String).map segToInt) p) =
              subPaths (segToInt d_str) S := by
            refine List.filter_eq_self.mpr ?_
            intro a _
            exact startsWithL_nil a
          rw [hinner] at hall
          exact hSsub hall.symm
        rcases hre : rest with - | ⟨r0, rs⟩
        · exact absurd hre hrest
        · simp
      · simp only [List.map_cons]
        rw [maxTagF_map_cons]
        simp only [List.length_cons, List.foldl_cons]
        by_cases hlen : (maxTagF m0 ms).length < (rest.map segToInt).length + w
        · rw [if_pos hlen, if_pos (by omega)]
        · rw [if_neg hlen, if_neg (by omega)]

/-- `segsAux` swallows a leading run of digit characters into its
accumulator. -/
theorem segsAux_digits (ds : List Char) (run cs : List Char)
    (hd : ds.all Char.isDigit = true) :
    segsAux run (ds ++ cs) = segsAux (ds.reverse ++ run) cs := by
  induction ds generalizing run with
  | nil => simp
  | cons d rest ih =>
    simp only [List.all_cons, Bool.and_eq_true] at hd
    calc segsAux run ((d :: rest) ++ cs)
        = segsAux (d :: run) (rest ++ cs) := by
          simp [segsAux, hd.1]
      _ = segsAux (rest.reverse ++ (d :: run)) cs := ih (d :: run) hd.2
      _ = segsAux ((d :: rest).reverse ++ run) cs := by simp

/-- Flushing step of `segsAux`: a non-digit, non-`x` character after a
nonempty digit run emits the run. -/
theorem segsAux_flush (run : List Char) (c : Char) (cs : List Char)
    (hrun : ¬ (run = [])) (hc : ¬ (c.isDigit = true)) (hcx : ¬ (c = 'x')) :
    segsAux run (c :: cs) = String.mk run.reverse :: segsAux [] cs := by
  simp only [segsAux, if_neg hc, if_neg hrun, if_neg hcx]
  simp

/-- A pure digit run is one segment. -/
theorem segsAux_all_digits (b : List Char) (hb : b ≠ [])
    (hdb : b.all Char.isDigit = true) :
    segsAux [] b = [String.mk b] := by
  have h3 := segsAux_digits b [] [] hdb
  rw [List.append_nil, List.append_nil] at h3
  rw [h3]
  have hrb : ¬ (b.reverse = []) := by simpa using hb
  simp only [segsAux, if_neg hrb]
  simp

/-- The segment list of a pattern `v<digits>.x.<digits>`. -/
theorem findSegs_digit_x_digit (a b : List Char) (ha : a ≠ []) (hb : b ≠ [])
    (hda : a.all Char.isDigit = true) (hdb : b.all Char.isDigit = true) :
    findSegs (String.mk ('v' :: (a ++ '.' :: 'x' :: '.' :: b))) =
      [String.mk a, "x", String.mk b] := by
  have h0 : findSegs (String.mk ('v' :: (a ++ '.' :: 'x' :: '.' :: b)))
      = segsAux [] (a ++ '.' :: 'x' :: '.' :: b) := rfl
  rw [h0, segsAux_digits a [] _ hda]
  have hra : ¬ (a.reverse ++ [] = ([] : List Char)) := by simpa using ha
  have hdot : ¬ (('.' : Char).isDigit = true) := by decide
  have hdx : ¬ (('.' : Char) = 'x') := by decide
  rw [segsAux_flush _ '.' _ hra hdot hdx]
  have h1 : segsAux ([] : List Char) ('x' :: '.' :: b) = "x" :: segsAux [] b := rfl
  rw [h1, segsAux_all_digits b hb hdb]
  simp

/-- The mixed wildcard-then-digit regex accepts `v<digits>.x.<digits>`. -/
theorem mixedMatch_digit_x_digit (a b : List Char) (ha : a ≠ []) (hb : b ≠ [])
    (hda : a.all Char.isDigit = true) (hdb : b.all Char.isDigit = true) :
    mixedMatch (String.mk ('v' :: (a ++ '.' :: 'x' :: '.' :: b))) = true := by
  have hal : 0 < a.length := List.length_pos.mpr ha
  have hbl : 0 < b.length := List.length_pos.mpr hb
  have hlen : (a ++ '.' :: 'x' :: '.' :: b).length = a.length + 3 + b.length := by
    simp [List.length_append]
    omega
  show (List.range ((a ++ '.' :: 'x' :: '.' :: b).length + 1)).any _ = true
  rw [List.any_eq_true]
  refine ⟨a.length + 1, List.mem_range.mpr (by omega), ?_⟩
  rw [List.any_eq_true]
  refine ⟨2, List.mem_range.mpr (by omega), ?_⟩
  simp only [Bool.and_eq_true, decide_eq_true_eq]
  refine ⟨⟨⟨⟨⟨by omega, by omega⟩, by omega⟩, ?_⟩, ?_⟩, ?_⟩
  · -- take (|a|+1) = a ++ ['.'] : all digits or dots
    have ht : (a ++ '.' :: 'x' :: '.' :: b).take (a.length + 1) = a ++ ['.'] := by
      rw [List.take_append_eq_append_take]
      simp
    rw [ht, List.all_append]
    refine Bool.and_eq_true .. ▸ ⟨?_, by decide⟩
    rw [List.all_eq_true] at hda ⊢
    intro c hc
    simp [digitDot, hda c hc]
  · -- drop (|a|+1) then take 2 = ['x', '.']
    have hd : (a ++ '.' :: 'x' :: '.' :: b).drop (a.length + 1) = 'x' :: '.' :: b := by
      rw [List.drop_append_eq_append_drop]
      simp
    rw [hd]
    have ht2 : ('x' :: '.' :: b).take 2 = ['x', '.'] := rfl
    rw [ht2]
    decide
  · -- drop (|a|+3) = b : all digits
    have hd3 : (a ++ '.' :: 'x' :: '.' :: b).drop (a.length + 3) = b := by
      rw [List.drop_append_eq_append_drop]
      have : a.length + 3 - a.length = 3 := by omega
      rw [List.drop_of_length_le (by omega), this]
      simp
    rw [hd3]
    rw [List.all_eq_true] at hdb ⊢
    intro c hc
    simp [digitDot, hdb c hc]

/-! ### Dot-joined pattern families and the mixed regex in general -/

theorem dotJoin_append (l1 l2 : List (List Char)) (h1 : l1 ≠ []) (h2 : l2 ≠ []) :
    dotJoin (l1 ++ l2) = dotJoin l1 ++ '.' :: dotJoin l2 := by
  induction l1 with
  | nil => exact absurd rfl h1
  | cons s rest ih =>
    cases rest with
    | nil =>
      cases l2 with
      | nil => exact absurd rfl h2
      | cons t r2 => rfl
    | cons s2 r2 =>
      have hstep : dotJoin ((s :: s2 :: r2) ++ l2) =
          s ++ '.' :: dotJoin ((s2 :: r2) ++ l2) := rfl
      rw [hstep, ih (List.cons_ne_nil s2 r2)]
      have hstep2 : dotJoin (s :: s2 :: r2) = s ++ '.' :: dotJoin (s2 :: r2) := rfl
      rw [hstep2]
      simp

theorem dotJoin_all (p : Char → Bool) (hp : p '.' = true) (l : List (List Char))
    (h : ∀ s ∈ l, s.all p = true) : (dotJoin l).all p = true := by
  induction l with
  | nil => rfl
  | cons s rest ih =>
    cases rest with
    | nil => exact h s (List.mem_cons_self _ _)
    | cons s2 r2 =>
      have hstep : dotJoin (s :: s2 :: r2) = s ++ '.' :: dotJoin (s2 :: r2) := rfl
      rw [hstep, List.all_append, List.all_cons, hp,
        h s (List.mem_cons_self _ _),
        ih (fun t ht => h t (List.mem_cons_of_mem _ ht))]
      rfl

theorem dotJoin_ne_nil (l : List (List Char)) (h : l ≠ [])
    (hs : ∀ s ∈ l, s ≠ []) : dotJoin l ≠ [] := by
  cases l with
  | nil => exact absurd rfl h
  | cons s rest =>
    cases rest with
    | nil => exact hs s (List.mem_cons_self _ _)
    | cons s2 r2 =>
      have hstep : dotJoin (s :: s2 :: r2) = s ++ '.' :: dotJoin (s2 :: r2) := rfl
      rw [hstep]
      intro hcon
      exact absurd (List.append_eq_nil.mp hcon).2 (List.cons_ne_nil _ _)

theorem dotJoin_head_mem (s : List Char) (rest : List (List Char)) (c : Char)
    (hc : c ∈ s) : c ∈ dotJoin (s :: rest) := by
  cases rest with
  | nil => exact hc
  | cons s2 r2 =>
    have hstep : dotJoin (s :: s2 :: r2) = s ++ '.' :: dotJoin (s2 :: r2) := rfl
    rw [hstep]
    exact List.mem_append_left _ hc

theorem all_digitDot_of_digits (s : List Char) (h : s.all Char.isDigit = true) :
    s.all digitDot = true := by
  rw [List.all_eq_true] at h ⊢
  intro c hc
  simp [digitDot, h c hc]

/-- `re.findall` emits an `"x"` segment for every literal `x` in the
pattern. -/
theorem segsAux_x_mem (cs : List Char) :
    ∀ run, 'x' ∈ cs → "x" ∈ segsAux run cs := by
  induction cs with
  | nil =>
    intro run h
    exact absurd h (List.not_mem_nil _)
  | cons c cs2 ih =>
    intro run h
    by_cases hd : c.isDigit = true
    · have hcx : ¬ (c = 'x') := by
        intro hcon
        subst hcon
        exact absurd hd (by decide)
      have h2 : 'x' ∈ cs2 := by
        rcases List.mem_cons.mp h with h1 | h1
        · exact absurd h1.symm hcx
        · exact h1
      rw [show segsAux run (c :: cs2) = segsAux (c :: run) cs2 from by simp [segsAux, hd]]
      exact ih (c :: run) h2
    · by_cases hx : c = 'x'
      · rw [show segsAux run (c :: cs2) =
            (if run = [] then [] else [String.mk run.reverse]) ++ "x" :: segsAux [] cs2 from
            by simp [segsAux, hd, hx]]
        exact List.mem_append_right _ (List.mem_cons_self _ _)
      · have h2 : 'x' ∈ cs2 := by
          rcases List.mem_cons.mp h with h1 | h1
          · exact absurd h1.symm hx
          · exact h1
        rw [show segsAux run (c :: cs2) =
            (if run = [] then [] else [String.mk run.reverse]) ++ segsAux [] cs2 from
            by simp [segsAux, hd, hx]]
        exact List.mem_append_right _ (ih [] h2)

/-- The mixed wildcard-then-digit regex accepts every pattern
`v<digits-and-dots><dot><xs-and-dots><dot><digits-and-dots>`. -/
theorem mixedMatch_split (D X E : List Char) (hE : E ≠ [])
    (haD : D.all digitDot = true) (haX : X.all xDot = true)
    (haE : E.all digitDot = true) :
    mixedMatch (String.mk ('v' :: (D ++ '.' :: (X ++ '.' :: E)))) = true := by
  have hEl : 0 < E.length := List.length_pos.mpr hE
  have hlen : (D ++ '.' :: (X ++ '.' :: E)).length = D.length + X.length + E.length + 2 := by
    simp [List.length_append]
    omega
  show (List.range ((D ++ '.' :: (X ++ '.' :: E)).length + 1)).any _ = true
  rw [List.any_eq_true]
  refine ⟨D.length + 1, List.mem_range.mpr (by omega), ?_⟩
  rw [List.any_eq_true]
  refine ⟨X.length + 1, List.mem_range.mpr (by omega), ?_⟩
  simp only [Bool.and_eq_true, decide_eq_true_eq]
  refine ⟨⟨⟨⟨⟨by omega, by omega⟩, by omega⟩, ?_⟩, ?_⟩, ?_⟩
  · have ht : (D ++ '.' :: (X ++ '.' :: E)).take (D.length + 1) = D ++ ['.'] := by
      rw [List.take_append_eq_append_take]
      simp
    rw [ht, List.all_append]
    simp [haD]
    decide
  · have hd : (D ++ '.' :: (X ++ '.' :: E)).drop (D.length + 1) = X ++ '.' :: E := by
      rw [List.drop_append_eq_append_drop]
      simp
    rw [hd]
    have ht2 : (X ++ '.' :: E).take (X.length + 1) = X ++ ['.'] := by
      rw [List.take_append_eq_append_take]
      simp
    rw [ht2, List.all_append]
    simp [haX]
    decide
  · have hd2 : (D ++ '.' :: (X ++ '.' :: E)).drop (D.length + 1 + (X.length + 1)) = E := by
      rw [List.drop_append_eq_append_drop]
      rw [List.drop_of_length_le (by omega)]
      have h3 : D.length + 1 + (X.length + 1) - D.length = X.length + 1 + 1 := by omega
      rw [h3, List.drop_succ_cons, List.drop_append_eq_append_drop]
      rw [List.drop_of_length_le (by omega)]
      have h4 : X.length + 1 - X.length = 1 := by omega
      rw [h4]
      simp
    rw [hd2, haE]

/-! ### Identity codec round-trip lemmas -/

theorem splitFirstAt_not_mem (sep : Char) (l : List Char) (h : ¬ sep ∈ l) :
    splitFirstAt sep l = none := by
  induction l with
  | nil => rfl
  | cons c cs ih =>
    have h1 : ¬ (c = sep) := fun hh => h (hh ▸ List.mem_cons_self _ _)
    have h2 : ¬ sep ∈ cs := fun hh => h (List.mem_cons_of_mem _ hh)
    simp only [splitFirstAt, if_neg h1, ih h2]

theorem splitFirstAt_append (sep : Char) (l1 l2 : List Char)
    (h : ¬ sep ∈ l1) :
    splitFirstAt sep (l1 ++ sep :: l2) = some (l1, l2) := by
  induction l1 with
  | nil => simp [splitFirstAt]
  | cons c cs ih =>
    have h1 : ¬ (c = sep) := fun hh => h (hh ▸ List.mem_cons_self _ _)
    have h2 : ¬ sep ∈ cs := fun hh => h (List.mem_cons_of_mem _ hh)
    simp only [List.cons_append, splitFirstAt, if_neg h1, List.append_eq, ih h2]

theorem splitOnChar_not_mem (sep : Char) (l : List Char) (h : ¬ sep ∈ l) :
    splitOnChar sep l = [l] := by
  induction l with
  | nil => rfl
  | cons c cs ih =>
    have h1 : ¬ (c = sep) := fun hh => h (hh ▸ List.mem_cons_self _ _)
    have h2 : ¬ sep ∈ cs := fun hh => h (List.mem_cons_of_mem _ hh)
    simp only [splitOnChar, if_neg h1, ih h2]

theorem splitOnChar_append (sep : Char) (l1 l2 : List Char)
    (h : ¬ sep ∈ l1) :
    splitOnChar sep (l1 ++ sep :: l2) = l1 :: splitOnChar sep l2 := by
  induction l1 with
  | nil => simp [splitOnChar]
  | cons c cs ih =>
    have h1 : ¬ (c = sep) := fun hh => h (hh ▸ List.mem_cons_self _ _)
    have h2 : ¬ sep ∈ cs := fun hh => h (List.mem_cons_of_mem _ hh)
    simp only [List.cons_append, splitOnChar, if_neg h1, List.append_eq, ih h2]

theorem pyUnquote_id (l : List Char) (h : ¬ '%' ∈ l) : pyUnquote l = l := by
  simp [pyUnquote, splitOnChar_not_mem '%' l h]

theorem pyReplace_id (l : List Char) (h : ¬ '+' ∈ l) :
    pyReplace '+' ' ' l = l := by
  induction l with
  | nil => rfl
  | cons c cs ih =>
    have h1 : ¬ (c = '+') := fun hh => h (hh ▸ List.mem_cons_self _ _)
    have h2 : ¬ '+' ∈ cs := fun hh => h (List.mem_cons_of_mem _ hh)
    simp [pyReplace, h1]
    exact ih h2

theorem string_mk_data (s : String) : String.mk s.data = s := by
  cases s
  rfl

/-- Facts packaged from `qsSafe`. -/
theorem qsSafe_spec {c : Char} (h : qsSafe c = true) :
    c ≠ '&' ∧ c ≠ '=' ∧ c ≠ '%' ∧ c ≠ '+' ∧ c ≠ ';' ∧ c ≠ '#' := by
  simp only [qsSafe, Bool.not_eq_true', Bool.or_eq_false_iff, beq_eq_false_iff_ne,
    ne_eq] at h
  exact ⟨h.1.1.1.1.1, h.1.1.1.1.2, h.1.1.1.2, h.1.1.2, h.1.2, h.2⟩

theorem typeSafe_spec {c : Char} (h : typeSafe c = true) :
    c ≠ ':' ∧ c ≠ '?' ∧ c ≠ '#' := by
  simp only [typeSafe, Bool.not_eq_true', Bool.or_eq_false_iff, beq_eq_false_iff_ne,
    ne_eq] at h
  exact ⟨h.1.1, h.1.2, h.2⟩

/-- The characters of one query chunk `k=v`. -/
theorem chunk_data (k v : String) :
    (k ++ "=" ++ v).data = k.data ++ '=' :: v.data := by
  show (k.data ++ "=".data) ++ v.data = _
  simp

/-- `qslPair` on a chunk `k=v` whose pieces need no unquoting recovers the
pair. -/
theorem qslPair_chunk (k v : List Char) (hkeq : ¬ '=' ∈ k) (hvd : v ≠ [])
    (hkpct : ¬ '%' ∈ k) (hkplus : ¬ '+' ∈ k)
    (hvpct : ¬ '%' ∈ v) (hvplus : ¬ '+' ∈ v) :
    qslPair (k ++ '=' :: v) = some (k, v) := by
  have hne : k ++ '=' :: v ≠ [] := by simp
  show (if k ++ '=' :: v = [] then none
    else
      match splitFirstAt '=' (k ++ '=' :: v) with
      | none => none
      | some (n, w) =>
        if w = [] then none
        else some (pyUnquote (pyReplace '+' ' ' n), pyUnquote (pyReplace '+' ' ' w)))
    = some (k, v)
  rw [if_neg hne, splitFirstAt_append '=' _ _ hkeq]
  show (if v = [] then none
    else some (pyUnquote (pyReplace '+' ' ' k), pyUnquote (pyReplace '+' ' ' v)))
    = some (k, v)
  rw [if_neg hvd, pyReplace_id _ hkplus, pyReplace_id _ hvplus,
    pyUnquote_id _ hkpct, pyUnquote_id _ hvpct]

/-- The six excluded characters, specialized to a `k=v` chunk. -/
theorem chunk_facts (k v : String)
    (hk : ∀ c ∈ k.data, qsSafe c = true)
    (hv : v ≠ "") (hvc : ∀ c ∈ v.data, qsSafe c = true) :
    (¬ '=' ∈ k.data) ∧ v.data ≠ [] ∧
    (¬ '&' ∈ (k.data ++ '=' :: v.data)) ∧ (¬ ';' ∈ (k.data ++ '=' :: v.data)) ∧
    (¬ '%' ∈ k.data) ∧ (¬ '+' ∈ k.data) ∧ (¬ '%' ∈ v.data) ∧ (¬ '+' ∈ v.data) := by
  refine ⟨fun hh => (qsSafe_spec (hk _ hh)).2.1 rfl, ?_, ?_, ?_,
    fun hh => (qsSafe_spec (hk _ hh)).2.2.1 rfl,
    fun hh => (qsSafe_spec (hk _ hh)).2.2.2.1 rfl,
    fun hh => (qsSafe_spec (hvc _ hh)).2.2.1 rfl,
    fun hh => (qsSafe_spec (hvc _ hh)).2.2.2.1 rfl⟩
  · intro hh
    exact hv (by cases v; simp_all)
  · intro hh
    rcases List.mem_append.mp hh with h1 | h1
    · exact (qsSafe_spec (hk _ h1)).1 rfl
    · rcases List.mem_cons.mp h1 with h2 | h2
      · cases h2
      · exact (qsSafe_spec (hvc _ h2)).1 rfl
  · intro hh
    rcases List.mem_append.mp hh with h1 | h1
    · exact (qsSafe_spec (hk _ h1)).2.2.2.2.1 rfl
    · rcases List.mem_cons.mp h1 with h2 | h2
      · cases h2
      · exact (qsSafe_spec (hvc _ h2)).2.2.2.2.1 rfl

/-- `parse_qsl` of a single well-behaved chunk. -/
theorem parseQsl_single (k v : String)
    (hk : ∀ c ∈ k.data, qsSafe c = true)
    (hv : v ≠ "") (hvc : ∀ c ∈ v.data, qsSafe c = true) :
    parseQsl (k.data ++ '=' :: v.data) = [(k.data, v.data)] := by
  obtain ⟨hkeq, hvd, hamp, hsemi, hkpct, hkplus, hvpct, hvplus⟩ :=
    chunk_facts k v hk hv hvc
  simp only [parseQsl, splitOnChar_not_mem '&' _ hamp, List.map_cons,
    List.map_nil, splitOnChar_not_mem ';' _ hsemi, List.flatten_cons,
    List.flatten_nil, List.append_nil, List.filterMap_cons,
    qslPair_chunk k.data v.data hkeq hvd hkpct hkplus hvpct hvplus,
    List.filterMap_nil]

/-- `parse_qsl` peels one well-behaved chunk off the front of a query. -/
theorem parseQsl_cons_chunk (k v : String) (Y : List Char)
    (hk : ∀ c ∈ k.data, qsSafe c = true)
    (hv : v ≠ "") (hvc : ∀ c ∈ v.data, qsSafe c = true) :
    parseQsl ((k.data ++ '=' :: v.data) ++ '&' :: Y) =
      (k.data, v.data) :: parseQsl Y := by
  obtain ⟨hkeq, hvd, hamp, hsemi, hkpct, hkplus, hvpct, hvplus⟩ :=
    chunk_facts k v hk hv hvc
  simp only [parseQsl, splitOnChar_append '&' _ _ hamp, List.map_cons,
    splitOnChar_not_mem ';' _ hsemi, List.flatten_cons, List.singleton_append,
    List.filterMap_cons,
    qslPair_chunk k.data v.data hkeq hvd hkpct hkplus hvpct hvplus]

/-- `parse_qsl` recovers exactly the serialized pairs. -/
theorem parseQsl_join (ps : List (String × String)) (hne : ps ≠ [])
    (hsafe : ∀ kv ∈ ps, (∀ c ∈ kv.1.data, qsSafe c = true) ∧ kv.2 ≠ "" ∧
      (∀ c ∈ kv.2.data, qsSafe c = true)) :
    parseQsl (joinSep "&" (ps.map (fun kv => kv.1 ++ "=" ++ kv.2))).data =
      ps.map (fun kv => (kv.1.data, kv.2.data)) := by
  induction ps with
  | nil => exact absurd rfl hne
  | cons kv rest ih =>
    obtain ⟨hk, hv, hvc⟩ := hsafe kv (List.mem_cons_self _ _)
    cases rest with
    | nil =>
      show parseQsl (kv.1 ++ "=" ++ kv.2).data = _
      rw [chunk_data]
      rw [parseQsl_single kv.1 kv.2 hk hv hvc]
      rfl
    | cons p2 rest2 =>
      have hstep : joinSep "&" ((kv :: p2 :: rest2).map (fun kv => kv.1 ++ "=" ++ kv.2)) =
          (kv.1 ++ "=" ++ kv.2) ++ "&" ++
            joinSep "&" ((p2 :: rest2).map (fun kv => kv.1 ++ "=" ++ kv.2)) := rfl
      rw [hstep]
      have hdata : ((kv.1 ++ "=" ++ kv.2) ++ "&" ++
          joinSep "&" ((p2 :: rest2).map (fun kv => kv.1 ++ "=" ++ kv.2))).data =
          (kv.1.data ++ '=' :: kv.2.data) ++ '&' ::
            (joinSep "&" ((p2 :: rest2).map (fun kv => kv.1 ++ "=" ++ kv.2))).data := by
        show ((kv.1 ++ "=" ++ kv.2).data ++ "&".data) ++ _ = _
        rw [chunk_data]
        simp
      rw [hdata, parseQsl_cons_chunk kv.1 kv.2 _ hk hv hvc]
      rw [ih (by simp) (fun p hp => hsafe p (List.mem_cons_of_mem _ hp))]
      rfl

/-- `parse_qs` building step on a fresh key. -/
theorem addQsPair_not_mem (acc : List (List Char × List (List Char)))
    (k : List Char) (v : List Char) (h : ∀ q ∈ acc, q.1 ≠ k) :
    addQsPair acc k v = acc ++ [(k, [v])] := by
  induction acc with
  | nil => rfl
  | cons q rest ih =>
    obtain ⟨k', vs⟩ := q
    have h1 : k' ≠ k := h _ (List.mem_cons_self _ _)
    simp only [addQsPair, if_neg h1, List.cons_append]
    rw [ih (fun q hq => h q (List.mem_cons_of_mem _ hq))]

/-- Grouping pairwise-distinct pairs is just a singleton-list wrap. -/
theorem parseQs_groups (pairs : List (List Char × List Char)) :
    ∀ acc : List (List Char × List (List Char)),
    (pairs.map Prod.fst).Nodup →
    (∀ p ∈ pairs, ∀ q ∈ acc, q.1 ≠ p.1) →
    pairs.foldl (fun d p => addQsPair d p.1 p.2) acc =
      acc ++ pairs.map (fun p => (p.1, [p.2])) := by
  induction pairs with
  | nil => intro acc _ _; simp
  | cons p rest ih =>
    intro acc hnodup hdisj
    simp only [List.foldl_cons]
    rw [addQsPair_not_mem acc p.1 p.2 (hdisj p (List.mem_cons_self _ _))]
    rw [List.map_cons] at hnodup
    have hnd2 := List.nodup_cons.mp hnodup
    rw [ih (acc ++ [(p.1, [p.2])]) hnd2.2 ?_]
    · simp
    · intro r hr q hq
      rcases List.mem_append.mp hq with h1 | h1
      · exact hdisj r (List.mem_cons_of_mem _ hr) q h1
      · rcases List.mem_singleton.mp h1 with rfl
        intro hcon
        exact hnd2.1 (hcon ▸ List.mem_map_of_mem Prod.fst hr)

/-- `descriptor_dict[param] = value` on a fresh key appends. -/
theorem dictInsert_not_mem (acc : List (String × String)) (k v : String)
    (h : ∀ q ∈ acc, q.1 ≠ k) :
    dictInsert acc k v = acc ++ [(k, v)] := by
  induction acc with
  | nil => rfl
  | cons q rest ih =>
    obtain ⟨k', v'⟩ := q
    have h1 : k' ≠ k := h _ (List.mem_cons_self _ _)
    simp only [dictInsert, if_neg h1, List.cons_append]
    rw [ih (fun q hq => h q (List.mem_cons_of_mem _ hq))]

theorem foldl_dictInsert (ps : List (String × String)) :
    ∀ acc : List (String × String),
    (ps.map Prod.fst).Nodup →
    (∀ p ∈ ps, ∀ q ∈ acc, q.1 ≠ p.1) →
    ps.foldl (fun d p => dictInsert d p.1 p.2) acc = acc ++ ps := by
  induction ps with
  | nil => intro acc _ _; simp
  | cons p rest ih =>
    intro acc hnodup hdisj
    simp only [List.foldl_cons]
    rw [dictInsert_not_mem acc p.1 p.2 (hdisj p (List.mem_cons_self _ _))]
    rw [List.map_cons] at hnodup
    have hnd2 := List.nodup_cons.mp hnodup
    rw [ih (acc ++ [p]) hnd2.2 ?_]
    · simp
    · intro r hr q hq
      rcases List.mem_append.mp hq with h1 | h1
      · exact hdisj r (List.mem_cons_of_mem _ hr) q h1
      · rcases List.mem_singleton.mp h1 with rfl
        intro hcon
        exact hnd2.1 (hcon ▸ List.mem_map_of_mem Prod.fst hr)

/-- Character breakdown of the serialized descriptor URI. -/
theorem uri_data (ty qs : String) :
    (joinSep ":" ["sgtk", "descriptor", ty] ++ "?" ++ qs).data =
      "sgtk".data ++ ':' :: ("descriptor".data ++ ':' :: (ty.data ++ '?' :: qs.data)) := by
  show ((("sgtk".data ++ [':']) ++ (("descriptor".data ++ [':']) ++ ty.data)) ++ ['?']) ++ qs.data = _
  simp [List.append_assoc]

/-- Re-parsing the serialized URI: scheme `sgtk`, empty netloc, path
`descriptor:<type>`, no params, the query string, no fragment. -/
theorem pyUrlparse_descriptor (ty qs : String)
    (hty : ∀ c ∈ ty.data, typeSafe c = true)
    (hqs : ¬ '#' ∈ qs.data) :
    pyUrlparse (joinSep ":" ["sgtk", "descriptor", ty] ++ "?" ++ qs) =
      some ⟨"sgtk".data, [], "descriptor".data ++ ':' :: ty.data, [], qs.data, []⟩ := by
  have hU2h : ¬ '#' ∈ ("descriptor".data ++ ':' :: (ty.data ++ '?' :: qs.data)) := by
    intro hh
    rcases List.mem_append.mp hh with h1 | h1
    · exact absurd h1 (by decide)
    · rcases List.mem_cons.mp h1 with h2 | h2
      · exact absurd h2 (by decide)
      · rcases List.mem_append.mp h2 with h3 | h3
        · exact (typeSafe_spec (hty _ h3)).2.2 rfl
        · rcases List.mem_cons.mp h3 with h4 | h4
          · exact absurd h4 (by decide)
          · exact hqs h4
  have hU3q : ¬ '?' ∈ ("descriptor".data ++ ':' :: ty.data) := by
    intro hh
    rcases List.mem_append.mp hh with h1 | h1
    · exact absurd h1 (by decide)
    · rcases List.mem_cons.mp h1 with h2 | h2
      · exact absurd h2 (by decide)
      · exact (typeSafe_spec (hty _ h2)).2.1 rfl
  have hassoc : "descriptor".data ++ ':' :: (ty.data ++ '?' :: qs.data) =
      ("descriptor".data ++ ':' :: ty.data) ++ '?' :: qs.data := by
    simp [List.append_assoc]
  have hf : fragSplit ("descriptor".data ++ ':' :: (ty.data ++ '?' :: qs.data)) =
      ("descriptor".data ++ ':' :: (ty.data ++ '?' :: qs.data), []) := by
    rw [fragSplit, splitFirstAt_not_mem '#' _ hU2h]
  have hq : querySplit ("descriptor".data ++ ':' :: (ty.data ++ '?' :: qs.data)) =
      ("descriptor".data ++ ':' :: ty.data, qs.data) := by
    rw [querySplit, hassoc, splitFirstAt_append '?' _ _ hU3q]
  have hs : schemeSplit (joinSep ":" ["sgtk", "descriptor", ty] ++ "?" ++ qs).data =
      ("sgtk".data, "descriptor".data ++ ':' :: (ty.data ++ '?' :: qs.data)) := by
    rw [uri_data]
    rfl
  have hn : netlocSplit ("descriptor".data ++ ':' :: (ty.data ++ '?' :: qs.data)) =
      some ([], "descriptor".data ++ ':' :: (ty.data ++ '?' :: qs.data)) := rfl
  have hp : paramsSplit "sgtk".data ("descriptor".data ++ ':' :: ty.data) =
      ("descriptor".data ++ ':' :: ty.data, []) := rfl
  simp only [pyUrlparse, hs, hn, hf, hq, hp]

/-- The query chunks built by `uri_from_dict` are the chunks of the
non-`type` entries. -/
theorem qs_chunks_eq (d : List (String × String)) :
    d.filterMap (fun kv => if kv.1 = "type" then none else some (kv.1 ++ "=" ++ kv.2)) =
      (dropType d).map (fun kv => kv.1 ++ "=" ++ kv.2) := by
  induction d with
  | nil => rfl
  | cons kv rest ih =>
    by_cases h : kv.1 = "type"
    · rw [List.filterMap_cons, if_pos h, dropType, if_pos h, ih]
    · rw [List.filterMap_cons, if_neg h, dropType, if_neg h, List.map_cons, ih]

theorem lookupStr_dropType (d : List (String × String)) (k : String) (hk : k ≠ "type") :
    lookupStr (dropType d) k = lookupStr d k := by
  induction d with
  | nil => rfl
  | cons kv rest ih =>
    by_cases h : kv.1 = "type"
    · have hne : ¬ (kv.1 = k) := fun hh => hk (hh ▸ h)
      rw [dropType, if_pos h, lookupStr, if_neg hne, ih]
    · by_cases h2 : kv.1 = k
      · rw [dropType, if_neg h, lookupStr, if_pos h2, lookupStr, if_pos h2]
      · rw [dropType, if_neg h, lookupStr, if_neg h2, lookupStr, if_neg h2, ih]

theorem mem_dropType (d : List (String × String)) (kv : String × String)
    (h : kv ∈ dropType d) : kv ∈ d := by
  induction d with
  | nil => exact absurd h (List.not_mem_nil kv)
  | cons p rest ih =>
    by_cases hp : p.1 = "type"
    · rw [dropType, if_pos hp] at h
      exact List.mem_cons_of_mem _ (ih h)
    · rw [dropType, if_neg hp] at h
      rcases List.mem_cons.mp h with h1 | h1
      · exact h1 ▸ List.mem_cons_self _ _
      · exact List.mem_cons_of_mem _ (ih h1)

theorem mem_dropType_of_mem (d : List (String × String)) (kv : String × String)
    (h : kv ∈ d) (hne : kv.1 ≠ "type") : kv ∈ dropType d := by
  induction d with
  | nil => exact absurd h (List.not_mem_nil kv)
  | cons p rest ih =>
    rcases List.mem_cons.mp h with h1 | h1
    · subst h1
      rw [dropType, if_neg hne]
      exact List.mem_cons_self _ _
    · by_cases hp : p.1 = "type"
      · rw [dropType, if_pos hp]
        exact ih h1
      · rw [dropType, if_neg hp]
        exact List.mem_cons_of_mem _ (ih h1)

theorem dropType_key_ne (d : List (String × String)) (kv : String × String)
    (h : kv ∈ dropType d) : kv.1 ≠ "type" := by
  induction d with
  | nil => exact absurd h (List.not_mem_nil kv)
  | cons p rest ih =>
    by_cases hp : p.1 = "type"
    · rw [dropType, if_pos hp] at h
      exact ih h
    · rw [dropType, if_neg hp] at h
      rcases List.mem_cons.mp h with h1 | h1
      · exact h1 ▸ hp
      · exact ih h1

theorem dropType_sublist (d : List (String × String)) :
    List.Sublist (dropType d) d := by
  induction d with
  | nil => exact List.Sublist.refl []
  | cons p rest ih =>
    by_cases hp : p.1 = "type"
    · rw [dropType, if_pos hp]
      exact List.Sublist.cons p ih
    · rw [dropType, if_neg hp]
      exact List.Sublist.cons₂ p ih

theorem data_inj : Function.Injective String.data := by
  intro a b h
  cases a
  cases b
  exact congrArg String.mk h

/-- A character of a joined query string is either the separator or a
character of one of the chunks. -/
theorem joinSep_amp_mem (l : List String) (c : Char) :
    c ∈ (joinSep "&" l).data → c = '&' ∨ ∃ s ∈ l, c ∈ s.data := by
  induction l with
  | nil =>
    intro hc
    exact absurd hc (List.not_mem_nil c)
  | cons s rest ih =>
    cases rest with
    | nil =>
      intro hc
      exact Or.inr ⟨s, List.mem_cons_self _ _, hc⟩
    | cons s2 rest2 =>
      intro hc
      have hd : (s ++ "&" ++ joinSep "&" (s2 :: rest2)).data =
          s.data ++ '&' :: (joinSep "&" (s2 :: rest2)).data := by
        show (s.data ++ "&".data) ++ _ = _
        simp
      rw [show joinSep "&" (s :: s2 :: rest2) = s ++ "&" ++ joinSep "&" (s2 :: rest2) from rfl,
        hd] at hc
      rcases List.mem_append.mp hc with h1 | h1
      · exact Or.inr ⟨s, List.mem_cons_self _ _, h1⟩
      · rcases List.mem_cons.mp h1 with h2 | h2
        · exact Or.inl h2
        · rcases ih h2 with h3 | ⟨t, ht, hct⟩
          · exact Or.inl h3
          · exact Or.inr ⟨t, List.mem_cons_of_mem _ ht, hct⟩

theorem chunk_mem (k v : String) (c : Char) (hc : c ∈ (k ++ "=" ++ v).data) :
    c ∈ k.data ∨ c = '=' ∨ c ∈ v.data := by
  rw [chunk_data] at hc
  rcases List.mem_append.mp hc with h1 | h1
  · exact Or.inl h1
  · rcases List.mem_cons.mp h1 with h2 | h2
    · exact Or.inr (Or.inl h2)
    · exact Or.inr (Or.inr h2)

/-- A query string serialized from well-behaved pairs contains no `#`. -/
theorem qs_no_hash (ps : List (String × String))
    (hsafe : ∀ kv ∈ ps, (∀ c ∈ kv.1.data, qsSafe c = true) ∧ kv.2 ≠ "" ∧
      (∀ c ∈ kv.2.data, qsSafe c = true)) :
    ¬ '#' ∈ (joinSep "&" (ps.map (fun kv => kv.1 ++ "=" ++ kv.2))).data := by
  intro hc
  rcases joinSep_amp_mem _ _ hc with h1 | ⟨s, hs, hcs⟩
  · exact absurd h1 (by decide)
  · rcases List.mem_map.mp hs with ⟨kv, hkv, rfl⟩
    obtain ⟨hk, _, hv⟩ := hsafe kv hkv
    rcases chunk_mem _ _ _ hcs with h2 | h2 | h2
    · exact (qsSafe_spec (hk _ h2)).2.2.2.2.2 rfl
    · exact absurd h2 (by decide)
    · exact (qsSafe_spec (hv _ h2)).2.2.2.2.2 rfl

/-- Splitting the path of the serialized URI on `:` yields exactly the
`descriptor` marker and the type value. -/
theorem path_split (ty : String) (hty : ¬ ':' ∈ ty.data) :
    splitOnChar ':' ("descriptor".data ++ ':' :: ty.data) = ["descriptor".data, ty.data] := by
  rw [splitOnChar_append ':' _ _ (by decide), splitOnChar_not_mem ':' _ hty]

/-- A cache hit: with a non-`None` cached manifest, `get_manifest` returns
it and touches nothing. -/
theorem getManifest_hit (P : Provider) (w : World) (s : DState)
    (h : s.manifestData ≠ .vnone) :
    getManifest P w s = (.ok s.manifestData, s, w) := by
  simp only [getManifest, if_pos h]

/-- Whenever `get_manifest` returns a value, that value is what is cached
in the post-call state. -/
theorem getManifest_ok_state (P : Provider) (w : World) (s : DState)
    (m : PyVal) (s' : DState) (w' : World)
    (h : getManifest P w s = (.ok m, s', w')) : s'.manifestData = m := by
  by_cases hc : s.manifestData ≠ .vnone
  · rw [getManifest_hit P w s hc] at h
    simp only [Prod.mk.injEq, Except.ok.injEq] at h
    rw [← h.2.1, ← h.1]
  · unfold getManifest at h
    rw [if_neg hc] at h
    split at h
    · simp at h
    · split at h
      · simp at h
      · simp at h
      · simp only [Prod.mk.injEq, Except.ok.injEq] at h
        rw [← h.2.1, ← h.1]

/-- Whenever `get_manifest` fails, the descriptor state is unchanged. -/
theorem getManifest_err_state (P : Provider) (w : World) (s : DState)
    (e : ManifestErr) (s' : DState) (w' : World)
    (h : getManifest P w s = (.error e, s', w')) : s' = s := by
  by_cases hc : s.manifestData ≠ .vnone
  · rw [getManifest_hit P w s hc] at h
    simp at h
  · unfold getManifest at h
    rw [if_neg hc] at h
    split at h
    · simp only [Prod.mk.injEq] at h
      exact h.2.1.symm
    · split at h
      · simp only [Prod.mk.injEq] at h
        exact h.2.1.symm
      · simp only [Prod.mk.injEq] at h
        exact h.2.1.symm
      · simp at h

/-- A `get_manifest` call that returns Python `None` cannot have been a
cache hit, so the prior state was the unloaded sentinel. -/
theorem getManifest_ok_vnone_source (P : Provider) (w : World) (s : DState)
    (s' : DState) (w' : World)
    (h : getManifest P w s = (.ok .vnone, s', w')) : s.manifestData = .vnone := by
  by_cases hc : s.manifestData ≠ .vnone
  · rw [getManifest_hit P w s hc] at h
    simp only [Prod.mk.injEq, Except.ok.injEq] at h
    exact absurd h.1 hc
  · simpa using hc

/-! ## Claim theorems -/

/-- Claim C2: on the tag set `{v1.2.1, v1.2.3, v1.2.3.2, v1.4.1, v1.4.2.1,
v1.4.2.2}` the matcher returns `v1.4.2.2` for `v1.x.x`, `v1.2.3.2` for
`v1.2.x`, `v1.2.3.2` for the fully concrete `v1.2.3` (forked descent), and
fails with `NoMatchingVersion` for `v9.0.0`. -/
theorem C2_concrete_pattern_results :
    findLatestTagByPattern
        ["v1.2.1", "v1.2.3", "v1.2.3.2", "v1.4.1", "v1.4.2.1", "v1.4.2.2"]
        "v1.x.x" = .ok (some "v1.4.2.2") ∧
    findLatestTagByPattern
        ["v1.2.1", "v1.2.3", "v1.2.3.2", "v1.4.1", "v1.4.2.1", "v1.4.2.2"]
        "v1.2.x" = .ok (some "v1.2.3.2") ∧
    findLatestTagByPattern
        ["v1.2.1", "v1.2.3", "v1.2.3.2", "v1.4.1", "v1.4.2.1", "v1.4.2.2"]
        "v1.2.3" = .ok (some "v1.2.3.2") ∧
    findLatestTagByPattern
        ["v1.2.1", "v1.2.3", "v1.2.3.2", "v1.4.1", "v1.4.2.1", "v1.4.2.2"]
        "v9.0.0" =
      .error (.noMatchingVersion
        ["v1.2.1", "v1.2.3", "v1.2.3.2", "v1.4.1", "v1.4.2.1", "v1.4.2.2"]
        "v9.0.0") :=
  ⟨rfl, rfl, rfl, rfl⟩

/-- Claim C1, counterexample: the tag `w9.9.9` does not parse as
`v<int>.<int>.<int>`, yet it is *not* ignored — the source drops the first
character without checking it is `v`, so with tags `{w9.9.9, v1.2.3}` and
pattern `vx.x.x` the matcher answers `v9.9.9` (a string that is not even
among the input tags) instead of `v1.2.3`, which it answers once the
intruder is removed. -/
theorem C1_counterexample_nonv_tag_not_ignored :
    findLatestTagByPattern ["w9.9.9", "v1.2.3"] "vx.x.x" = .ok (some "v9.9.9") ∧
    findLatestTagByPattern ["v1.2.3"] "vx.x.x" = .ok (some "v1.2.3") :=
  ⟨rfl, rfl⟩

/-- Claim C3, counterexample: the wildcard-then-digit rejection regex
`^v[0-9\.]+[x\.]+[0-9\.]+$` demands a digit run *before* the wildcard, so
the pattern `vx.1.2` — a wildcard followed by concrete digit segments —
is not rejected: with tags `{v1.1.2}` the matcher happily returns
`v1.1.2` instead of raising `InvalidVersionPattern`. -/
theorem C3_counterexample_leading_wildcard_accepted :
    findLatestTagByPattern ["v1.1.2"] "vx.1.2" = .ok (some "v1.1.2") :=
  rfl

/-- Claim C3, amended: the rejection fires for the whole family of
patterns made of one or more concrete digit segments, then one or more
wildcard segments, then one or more concrete digit segments reaching the
end of the pattern (`v1.x.2`, `v1.2.x.3`, `v1.x.x.2`, ...), for every tag
set; patterns whose wildcard precedes every digit segment, such as
`vx.1.2`, are not rejected, as the counterexample shows. -/
theorem C3_amended_digit_wildcard_digit_rejected (version_numbers : List String)
    (ds1 ds2 : List (List Char)) (w : Nat) (hw : 1 ≤ w)
    (h1 : ds1 ≠ []) (h2 : ds2 ≠ [])
    (hd1 : ∀ s ∈ ds1, s ≠ [] ∧ s.all Char.isDigit = true)
    (hd2 : ∀ s ∈ ds2, s ≠ [] ∧ s.all Char.isDigit = true) :
    findLatestTagByPattern version_numbers
        (String.mk ('v' :: dotJoin (ds1 ++ List.replicate w ['x'] ++ ds2))) =
      .error (.invalidVersionPattern
        (String.mk ('v' :: dotJoin (ds1 ++ List.replicate w ['x'] ++ ds2)))) := by
  have hXne : List.replicate w ['x'] ≠ [] := by
    cases w with
    | zero => exact absurd hw (by decide)
    | succ k => simp
  have hsplit : dotJoin (ds1 ++ List.replicate w ['x'] ++ ds2) =
      dotJoin ds1 ++ '.' :: (dotJoin (List.replicate w ['x']) ++ '.' :: dotJoin ds2) := by
    rw [dotJoin_append (ds1 ++ List.replicate w ['x']) ds2 (by simp [h1]) h2,
        dotJoin_append ds1 (List.replicate w ['x']) h1 hXne]
    simp
  have hDall := dotJoin_all digitDot (by decide) ds1
    (fun s hs => all_digitDot_of_digits s (hd1 s hs).2)
  have hXall : (dotJoin (List.replicate w ['x'])).all xDot = true := by
    apply dotJoin_all xDot (by decide)
    intro s hs
    rw [List.eq_of_mem_replicate hs]
    decide
  have hEall := dotJoin_all digitDot (by decide) ds2
    (fun s hs => all_digitDot_of_digits s (hd2 s hs).2)
  have hEne : dotJoin ds2 ≠ [] := dotJoin_ne_nil ds2 h2 (fun s hs => (hd2 s hs).1)
  have hxmem : 'x' ∈ dotJoin (List.replicate w ['x']) := by
    cases w with
    | zero => exact absurd hw (by decide)
    | succ k =>
      have hrep : List.replicate (k + 1) ['x'] = ['x'] :: List.replicate k ['x'] := rfl
      rw [hrep]
      exact dotJoin_head_mem ['x'] _ 'x' (List.mem_cons_self _ _)
  apply findLatest_invalid_aux
  right
  rw [Bool.and_eq_true]
  constructor
  · have hmem : "x" ∈ findSegs
        (String.mk ('v' :: dotJoin (ds1 ++ List.replicate w ['x'] ++ ds2))) := by
      have h0 : findSegs (String.mk ('v' :: dotJoin (ds1 ++ List.replicate w ['x'] ++ ds2))) =
          segsAux [] ('v' :: dotJoin (ds1 ++ List.replicate w ['x'] ++ ds2)) := rfl
      rw [h0]
      apply segsAux_x_mem
      apply List.mem_cons_of_mem
      rw [hsplit]
      exact List.mem_append_right _
        (List.mem_cons_of_mem _ (List.mem_append_left _ hxmem))
    exact List.elem_iff.mpr hmem
  · rw [hsplit]
    exact mixedMatch_split (dotJoin ds1) (dotJoin (List.replicate w ['x'])) (dotJoin ds2)
      hEne hDall hXall hEall

/-- Witness for the amended C3 at `ds1 = ["1", "2"]`, one wildcard and
`ds2 = ["3"]` (pattern `v1.2.x.3`) and a nonempty tag set. -/
theorem C3_amended_digit_wildcard_digit_rejected_witness :
    1 ≤ 1 ∧ ([['1'], ['2']] : List (List Char)) ≠ [] ∧
    ([['3']] : List (List Char)) ≠ [] ∧
    (∀ s ∈ ([['1'], ['2']] : List (List Char)), s ≠ [] ∧ s.all Char.isDigit = true) ∧
    (∀ s ∈ ([['3']] : List (List Char)), s ≠ [] ∧ s.all Char.isDigit = true) ∧
    findLatestTagByPattern ["v1.5.2"]
        (String.mk ('v' :: dotJoin ([['1'], ['2']] ++ List.replicate 1 ['x'] ++ [['3']]))) =
      .error (.invalidVersionPattern
        (String.mk ('v' :: dotJoin ([['1'], ['2']] ++ List.replicate 1 ['x'] ++ [['3']])))) :=
  ⟨by decide, by decide, by decide, by decide, by decide,
   C3_amended_digit_wildcard_digit_rejected ["v1.5.2"] [['1'], ['2']] [['3']] 1
     (by decide) (by decide) (by decide) (by decide) (by decide)⟩

/-- Claim C4, counterexample: for the identity `{"type": "app"}` (which
satisfies the claim's hypotheses — it has a `"type"` key and no value
contains `&` or `=`) the produced URI is `sgtk:descriptor:app?`; parsing
it back fails: `urlparse` leaves the query empty, and the two-element
tuple unpacking `(path, query) = parsed_uri.path.split("?")` raises
`ValueError` because the path contains no `?`.  The round trip therefore
does not succeed. -/
theorem C4_counterexample_lone_type_key :
    uriFromDict [("type", "app")] = .ok "sgtk:descriptor:app?" ∧
    dictFromUri "sgtk:descriptor:app?" = .error .pyValueError :=
  ⟨rfl, rfl⟩

/-- Claim C4, amended: for every identity mapping that contains a `type`
key and at least one other key, whose values are nonempty and whose keys
and values contain none of the characters `& = % + ; #`, and whose type
value additionally contains no `:`, `?` or `#`, the round trip
`dict_from_uri(uri_from_dict(identity))` succeeds and returns a mapping
equal to the identity at every key. -/
theorem C4_amended_roundtrip (d : List (String × String)) (T : String)
    (htype : lookupStr d "type" = some T)
    (hnodup : (d.map Prod.fst).Nodup)
    (hextra : ∃ kv ∈ d, kv.1 ≠ "type")
    (hsafe : ∀ kv ∈ d, (∀ c ∈ kv.1.data, qsSafe c = true) ∧ kv.2 ≠ "" ∧
             (∀ c ∈ kv.2.data, qsSafe c = true))
    (htsafe : ∀ c ∈ T.data, typeSafe c = true) :
    ∃ uri d', uriFromDict d = .ok uri ∧ dictFromUri uri = .ok d' ∧
      ∀ k, lookupStr d' k = lookupStr d k := by
  have hsafe' : ∀ kv ∈ dropType d, (∀ c ∈ kv.1.data, qsSafe c = true) ∧ kv.2 ≠ "" ∧
      (∀ c ∈ kv.2.data, qsSafe c = true) :=
    fun kv hkv => hsafe kv (mem_dropType d kv hkv)
  have hpsne : dropType d ≠ [] := by
    obtain ⟨kv, hkv, hne⟩ := hextra
    intro hcon
    have hm := mem_dropType_of_mem d kv hkv hne
    rw [hcon] at hm
    exact List.not_mem_nil kv hm
  have hqs_h : ¬ '#' ∈ (joinSep "&" ((dropType d).map (fun kv => kv.1 ++ "=" ++ kv.2))).data :=
    qs_no_hash (dropType d) hsafe'
  have huri : uriFromDict d = .ok (joinSep ":" ["sgtk", "descriptor", T] ++ "?" ++
      joinSep "&" ((dropType d).map (fun kv => kv.1 ++ "=" ++ kv.2))) := by
    simp only [uriFromDict, htype, qs_chunks_eq d]
  have hparse := pyUrlparse_descriptor T _ htsafe hqs_h
  have hqsl : parseQsl (joinSep "&" ((dropType d).map (fun kv => kv.1 ++ "=" ++ kv.2))).data =
      (dropType d).map (fun kv => (kv.1.data, kv.2.data)) :=
    parseQsl_join (dropType d) hpsne hsafe'
  have hqsne : (joinSep "&" ((dropType d).map (fun kv => kv.1 ++ "=" ++ kv.2))).data ≠ [] := by
    intro hcon
    rw [hcon] at hqsl
    cases hdt : dropType d with
    | nil => exact hpsne hdt
    | cons a l =>
      rw [hdt] at hqsl
      exact List.noConfusion (show ([] : List (List Char × List Char)) =
        (a.1.data, a.2.data) :: l.map (fun kv => (kv.1.data, kv.2.data)) from hqsl)
  have hty_c : ¬ ':' ∈ T.data := fun hh => (typeSafe_spec (htsafe _ hh)).1 rfl
  have hsplit := path_split T hty_c
  have hnodup_ps : ((dropType d).map Prod.fst).Nodup :=
    hnodup.sublist ((dropType_sublist d).map Prod.fst)
  have hnodup_cs : (((dropType d).map (fun kv => (kv.1.data, kv.2.data))).map Prod.fst).Nodup := by
    rw [List.map_map]
    have heq : ((dropType d).map (Prod.fst ∘ fun kv : String × String => (kv.1.data, kv.2.data))) =
        ((dropType d).map Prod.fst).map String.data := by
      rw [List.map_map]
      rfl
    rw [heq]
    exact hnodup_ps.map data_inj
  have hgroups : parseQs (joinSep "&" ((dropType d).map (fun kv => kv.1 ++ "=" ++ kv.2))).data =
      (dropType d).map (fun kv => (kv.1.data, [kv.2.data])) := by
    rw [parseQs, hqsl, parseQs_groups _ [] hnodup_cs
      (fun p hp q hq => absurd hq (List.not_mem_nil q)), List.nil_append, List.map_map]
    rfl
  have hany : (((dropType d).map (fun kv => (kv.1.data, [kv.2.data]))).any
      (fun g => 1 < g.2.length)) = false := by
    simp only [List.any_eq_false]
    intro g hg
    rcases List.mem_map.mp hg with ⟨kv, hkv, rfl⟩
    simp
  have hdisj : ∀ p ∈ dropType d, ∀ q ∈ [(("type" : String), T)], q.1 ≠ p.1 := by
    intro p hp q hq
    rcases List.mem_singleton.mp hq with rfl
    exact fun hcon => dropType_key_ne d p hp hcon.symm
  have hfold : (((dropType d).map (fun kv => (kv.1.data, [kv.2.data]))).foldl
      (fun dd g => dictInsert dd (String.mk g.1) (String.mk (g.2.head?.getD [])))
      [("type", String.mk T.data)]) = ("type", T) :: dropType d := by
    rw [List.foldl_map]
    exact foldl_dictInsert (dropType d) [("type", T)] hnodup_ps hdisj
  have hdfu : dictFromUri (joinSep ":" ["sgtk", "descriptor", T] ++ "?" ++
      joinSep "&" ((dropType d).map (fun kv => kv.1 ++ "=" ++ kv.2))) =
      .ok (("type", T) :: dropType d) := by
    have hsplit2 : splitOnChar ':'
        ('d' :: 'e' :: 's' :: 'c' :: 'r' :: 'i' :: 'p' :: 't' :: 'o' :: 'r' :: ':' :: T.data) =
        [['d', 'e', 's', 'c', 'r', 'i', 'p', 't', 'o', 'r'], T.data] := hsplit
    simp [dictFromUri, hparse, hqsne, hany, hgroups, hsplit2, hfold]
  refine ⟨_, ("type", T) :: dropType d, huri, hdfu, ?_⟩
  intro k
  by_cases hk : k = "type"
  · subst hk
    rw [lookupStr, if_pos rfl, htype]
  · rw [lookupStr, if_neg (fun hh => hk hh.symm), lookupStr_dropType d k hk]

/-- Witness for the amended claim C4: the round trip preserves the mapping
with a type key and one extra key. -/
theorem C4_amended_roundtrip_witness :
    lookupStr [("type", "app"), ("name", "foo")] "type" = some "app" ∧
    (∃ uri d', uriFromDict [("type", "app"), ("name", "foo")] = .ok uri ∧
      dictFromUri uri = .ok d' ∧
      ∀ k, lookupStr d' k = lookupStr [("type", "app"), ("name", "foo")] k) :=
  ⟨rfl, C4_amended_roundtrip [("type", "app"), ("name", "foo")] "app" rfl
    (by decide)
    ⟨("name", "foo"), List.mem_cons_of_mem _ (List.mem_cons_self _ _), by decide⟩
    (by decide) (by decide)⟩

/-- Claim C1, amended: for every tag set and every pattern that passes
validation with segments consisting of concrete digit segments `dstrs`
followed by `w` wildcards, the matcher computes exactly the specification
value `specLatestTag`: tags are parsed by dropping their first character
(whatever it is) and splitting on dots, tags with fewer than three integer
components are ignored; among the parsed tags those extending the concrete
segments are kept; if none remain the call fails with `NoMatchingVersion`
carrying all input tags (or with the `max()`-of-empty `ValueError` when
the pattern is all wildcards); otherwise the numerically greatest such tag
(componentwise, forked extensions beating their base) is returned — unless
it has fewer components than the pattern, in which case a wildcard meets
an empty level and the call fails with the uncaught `ValueError`. -/
theorem C1_amended_matcher_correct (version_numbers : List String)
    (pattern : String) (dstrs : List String) (w : Nat)
    (hgram : grammarMatch pattern = true)
    (hmix : w ≠ 0 → mixedMatch pattern = false)
    (hsegs : findSegs pattern = dstrs ++ List.replicate w "x")
    (hx : ¬ ("x" ∈ dstrs))
    (hlen : 1 ≤ dstrs.length + w) :
    findLatestTagByPattern version_numbers pattern =
      specLatestTag version_numbers pattern (dstrs.map segToInt) w := by
  have hcond : ((findSegs pattern).contains "x" && mixedMatch pattern) = false := by
    rw [hsegs]
    cases w with
    | zero =>
      have h1 : (dstrs ++ List.replicate 0 "x").contains "x" = false := by
        rw [List.replicate, List.append_nil]
        cases hc : dstrs.contains "x"
        · rfl
        · exact absurd (List.elem_iff.mp hc) hx
      rw [h1, Bool.false_and]
    | succ w' =>
      rw [hmix (by omega), Bool.and_false]
  simp only [findLatestTagByPattern]
  rw [if_neg (by simp [hgram]),
      if_neg (fun hcontra => Bool.noConfusion (hcond ▸ hcontra)), hsegs]
  rcases hS : version_numbers.filterMap parseTag with - | ⟨p0, prest⟩
  · -- not a single tag parses: the trie is empty
    have hrep := Rep_root version_numbers
    rw [hS] at hrep
    have ht : buildVersions version_numbers = VTrie.node [] :=
      node_nil_of_all_nil hrep (by intro s hs; cases hs)
    rw [ht]
    cases dstrs with
    | nil =>
      have hw : 1 ≤ w := by simpa using hlen
      obtain ⟨w', rfl⟩ : ∃ w', w = w' + 1 := ⟨w - 1, by omega⟩
      have hd : descendSegs version_numbers pattern (VTrie.node [])
          (([] : List String) ++ List.replicate (w' + 1) "x") none =
          Except.error VErr.valueError := by
        rw [List.nil_append, List.replicate_succ]
        rfl
      rw [hd]
      simp [specLatestTag, hS]
    | cons d rest =>
      have hxd : ¬ (d = "x") := fun hh => hx (hh ▸ List.mem_cons_self _ _)
      have hd : descendSegs version_numbers pattern (VTrie.node [])
          ((d :: rest) ++ List.replicate w "x") none =
          Except.error (VErr.noMatchingVersion version_numbers pattern) := by
        rw [List.cons_append]
        show (match (if d = "x" then
                      match (VTrie.node []).children with
                      | [] => Except.error VErr.valueError
                      | c :: cs => Except.ok (maxKeyList (c :: cs))
                    else Except.ok (segToInt d)) with
              | Except.error e => Except.error e
              | Except.ok dd =>
                match lookupKey (VTrie.node []).children dd with
                | none =>
                  Except.error (VErr.noMatchingVersion version_numbers pattern)
                | some sub => descendSegs version_numbers pattern sub
                    (rest ++ List.replicate w "x") (appendSeg none dd)) = _
        rw [if_neg hxd]
        rfl
      rw [hd]
      simp [specLatestTag, hS]
  · -- the parsed paths are nonempty: the descent lemma applies
    have hrep := Rep_root version_numbers
    rw [hS] at hrep
    have hfuel : ∀ s ∈ p0 :: prest, s.length < totalLen version_numbers + 1 := by
      intro s hs
      rw [← hS] at hs
      rcases List.mem_filterMap.mp hs with ⟨tag, htag, hparse⟩
      have h1 := parseTag_length tag s hparse
      have h2 := totalLen_mem version_numbers tag htag
      omega
    have hmain := descend_spec version_numbers pattern dstrs w
      (buildVersions version_numbers) (p0 :: prest) none
      (totalLen version_numbers + 1) hrep (by simp) hx hfuel (Or.inl hlen)
    rw [hmain]
    simp only [specLatestTag, hS]

/-- Witness for the amended C1 at the tag set
`{v1.2.1, v1.2.3, v1.2.3.2}` and the pattern `v1.2.x`
(`dstrs = ["1", "2"]`, one wildcard). -/
theorem C1_amended_matcher_correct_witness :
    grammarMatch "v1.2.x" = true ∧
    mixedMatch "v1.2.x" = false ∧
    findSegs "v1.2.x" = ["1", "2"] ++ List.replicate 1 "x" ∧
    ¬ ("x" ∈ ["1", "2"]) ∧
    findLatestTagByPattern ["v1.2.1", "v1.2.3", "v1.2.3.2"] "v1.2.x" =
      specLatestTag ["v1.2.1", "v1.2.3", "v1.2.3.2"] "v1.2.x"
        (["1", "2"].map segToInt) 1 :=
  ⟨rfl, rfl, rfl, by decide,
   C1_amended_matcher_correct ["v1.2.1", "v1.2.3", "v1.2.3.2"] "v1.2.x"
     ["1", "2"] 1 rfl (fun _ => rfl) rfl (by decide) (by omega)⟩

/-- Claim C9: the three patterns `v1.2` (fewer than three segments),
`1.2.3` (missing leading `v`) and `v1.x.2` (digit following a wildcard)
are rejected with `InvalidVersionPattern` for every tag set. -/
theorem C9_pattern_grammar_rejections (version_numbers : List String) :
    findLatestTagByPattern version_numbers "v1.2" =
      .error (.invalidVersionPattern "v1.2") ∧
    findLatestTagByPattern version_numbers "1.2.3" =
      .error (.invalidVersionPattern "1.2.3") ∧
    findLatestTagByPattern version_numbers "v1.x.2" =
      .error (.invalidVersionPattern "v1.x.2") :=
  ⟨findLatest_invalid_aux version_numbers "v1.2" (.inl rfl),
   findLatest_invalid_aux version_numbers "1.2.3" (.inl rfl),
   findLatest_invalid_aux version_numbers "v1.x.2" (.inr rfl)⟩

/-- Claim C5: for the identity `(type="app", name="foo", version="v1.0.0")`
with primary root `/P` and fallbacks `[/F1, /F2]`, the candidate sequence
is exactly the six claimed paths in order, and for every filesystem
`get_path` returns the first candidate whose `info.yml` exists (`none`
when no candidate has it), with `exists_local` reporting whether any
candidate matched. -/
theorem C5_cache_path_order_and_probing :
    cachePathsFor .app "app" "foo" "v1.0.0" "/P" ["/F1", "/F2"] =
      ["/P/app/foo/v1.0.0", "/P/apps/app/foo/v1.0.0",
       "/F1/app/foo/v1.0.0", "/F1/apps/app/foo/v1.0.0",
       "/F2/app/foo/v1.0.0", "/F2/apps/app/foo/v1.0.0"] ∧
    (∀ download (w : World),
      getPath ⟨["/P/app/foo/v1.0.0", "/P/apps/app/foo/v1.0.0",
                "/F1/app/foo/v1.0.0", "/F1/apps/app/foo/v1.0.0",
                "/F2/app/foo/v1.0.0", "/F2/apps/app/foo/v1.0.0"],
               download⟩ w =
        (if pathExists w (pjoin "/P/app/foo/v1.0.0" BUNDLE_METADATA_FILE) then
          some "/P/app/foo/v1.0.0"
        else if pathExists w (pjoin "/P/apps/app/foo/v1.0.0" BUNDLE_METADATA_FILE) then
          some "/P/apps/app/foo/v1.0.0"
        else if pathExists w (pjoin "/F1/app/foo/v1.0.0" BUNDLE_METADATA_FILE) then
          some "/F1/app/foo/v1.0.0"
        else if pathExists w (pjoin "/F1/apps/app/foo/v1.0.0" BUNDLE_METADATA_FILE) then
          some "/F1/apps/app/foo/v1.0.0"
        else if pathExists w (pjoin "/F2/app/foo/v1.0.0" BUNDLE_METADATA_FILE) then
          some "/F2/app/foo/v1.0.0"
        else if pathExists w (pjoin "/F2/apps/app/foo/v1.0.0" BUNDLE_METADATA_FILE) then
          some "/F2/apps/app/foo/v1.0.0"
        else none)) ∧
    (∀ download (w : World),
      existsLocal ⟨["/P/app/foo/v1.0.0", "/P/apps/app/foo/v1.0.0",
                    "/F1/app/foo/v1.0.0", "/F1/apps/app/foo/v1.0.0",
                    "/F2/app/foo/v1.0.0", "/F2/apps/app/foo/v1.0.0"],
                   download⟩ w =
        (pathExists w (pjoin "/P/app/foo/v1.0.0" BUNDLE_METADATA_FILE) ||
         pathExists w (pjoin "/P/apps/app/foo/v1.0.0" BUNDLE_METADATA_FILE) ||
         pathExists w (pjoin "/F1/app/foo/v1.0.0" BUNDLE_METADATA_FILE) ||
         pathExists w (pjoin "/F1/apps/app/foo/v1.0.0" BUNDLE_METADATA_FILE) ||
         pathExists w (pjoin "/F2/app/foo/v1.0.0" BUNDLE_METADATA_FILE) ||
         pathExists w (pjoin "/F2/apps/app/foo/v1.0.0" BUNDLE_METADATA_FILE))) := by
  refine ⟨rfl, ?_, ?_⟩
  · intro download w
    show List.find? _ _ = _
    simp only [List.find?]
    cases pathExists w (pjoin "/P/app/foo/v1.0.0" BUNDLE_METADATA_FILE) <;>
      cases pathExists w (pjoin "/P/apps/app/foo/v1.0.0" BUNDLE_METADATA_FILE) <;>
      cases pathExists w (pjoin "/F1/app/foo/v1.0.0" BUNDLE_METADATA_FILE) <;>
      cases pathExists w (pjoin "/F1/apps/app/foo/v1.0.0" BUNDLE_METADATA_FILE) <;>
      cases pathExists w (pjoin "/F2/app/foo/v1.0.0" BUNDLE_METADATA_FILE) <;>
      cases pathExists w (pjoin "/F2/apps/app/foo/v1.0.0" BUNDLE_METADATA_FILE) <;>
      rfl
  · intro download w
    show (List.find? _ _).isSome = _
    simp only [List.find?]
    cases pathExists w (pjoin "/P/app/foo/v1.0.0" BUNDLE_METADATA_FILE) <;>
      cases pathExists w (pjoin "/P/apps/app/foo/v1.0.0" BUNDLE_METADATA_FILE) <;>
      cases pathExists w (pjoin "/F1/app/foo/v1.0.0" BUNDLE_METADATA_FILE) <;>
      cases pathExists w (pjoin "/F1/apps/app/foo/v1.0.0" BUNDLE_METADATA_FILE) <;>
      cases pathExists w (pjoin "/F2/app/foo/v1.0.0" BUNDLE_METADATA_FILE) <;>
      cases pathExists w (pjoin "/F2/apps/app/foo/v1.0.0" BUNDLE_METADATA_FILE) <;>
      rfl

/-- Claim C6: once `get_manifest` has returned a manifest (a non-`None`
value), every later call on the same instance returns that identical
cached value with the state unchanged, for *every* filesystem — in
particular the metadata file may have been deleted or modified, and the
call performs no filesystem access (the filesystem is returned
untouched). -/
theorem C6_manifest_memoized (P : Provider) (w0 : World) (s0 : DState)
    (m : PyVal) (s1 : DState) (w1 : World)
    (hfirst : getManifest P w0 s0 = (.ok m, s1, w1)) (hm : m ≠ .vnone) :
    ∀ w' : World, getManifest P w' s1 = (.ok m, s1, w') := by
  intro w'
  have hs1 : s1.manifestData = m := getManifest_ok_state P w0 s0 m s1 w1 hfirst
  have hne : s1.manifestData ≠ .vnone := hs1 ▸ hm
  rw [getManifest_hit P w' s1 hne, hs1]

/-- Witness for C6 at a concrete provider, filesystem and state: the first
call loads `vdata 7`, the second call — on a filesystem where the file
has been deleted — still returns it. -/
theorem C6_manifest_memoized_witness :
    getManifest ⟨["/r"], id⟩ ⟨[("/r/info.yml", .yamlOk (.vdata 7))]⟩ initialDState =
      (.ok (.vdata 7), ⟨.vdata 7⟩, ⟨[("/r/info.yml", .yamlOk (.vdata 7))]⟩) ∧
    getManifest ⟨["/r"], id⟩ (⟨[]⟩ : World) ⟨.vdata 7⟩ =
      (.ok (.vdata 7), ⟨.vdata 7⟩, ⟨[]⟩) :=
  ⟨rfl,
   C6_manifest_memoized ⟨["/r"], id⟩ ⟨[("/r/info.yml", .yamlOk (.vdata 7))]⟩
     initialDState (.vdata 7) ⟨.vdata 7⟩
     ⟨[("/r/info.yml", .yamlOk (.vdata 7))]⟩ rfl (by simp) ⟨[]⟩⟩

/-- Claim C7: when `get_manifest` fails — metadata file missing, metadata
unparseable, or the bundle path unresolvable after the download — the
descriptor state is left exactly as it was (no partial manifest is
cached), so a later call behaves exactly like a call from the prior
state. -/
theorem C7_no_caching_on_failure (P : Provider) (w : World) (s : DState)
    (e : ManifestErr) (s' : DState) (w' : World)
    (hfail : getManifest P w s = (.error e, s', w')) :
    s' = s ∧ ∀ w2 : World, getManifest P w2 s' = getManifest P w2 s := by
  have hs : s' = s := getManifest_err_state P w s e s' w' hfail
  exact ⟨hs, fun w2 => by rw [hs]⟩

/-- Witness for C7: with an empty filesystem and a download that creates
nothing, `get_manifest` fails and leaves the fresh state untouched. -/
theorem C7_no_caching_on_failure_witness :
    getManifest ⟨["/r"], id⟩ (⟨[]⟩ : World) initialDState =
      (.error .attributeError, initialDState, ⟨[]⟩) ∧
    initialDState = initialDState ∧
    ∀ w2 : World, getManifest ⟨["/r"], id⟩ w2 initialDState =
      getManifest ⟨["/r"], id⟩ w2 initialDState :=
  ⟨rfl, C7_no_caching_on_failure ⟨["/r"], id⟩ ⟨[]⟩ initialDState
    .attributeError initialDState ⟨[]⟩ rfl⟩

/-- Claim C8: when the bundle is already locally present, `ensure_local`
performs no materialization at all, and any number of consecutive calls
invokes `download_local` zero times in total (hence at most once). -/
theorem C8_ensure_local_idempotent (P : Provider) (w : World)
    (hlocal : existsLocal P w = true) :
    ensureLocal P w = (w, 0) ∧
    ∀ n : Nat, ensureLocalN P n w = (w, 0) ∧ (ensureLocalN P n w).2 ≤ 1 := by
  have h1 : ensureLocal P w = (w, 0) := by simp [ensureLocal, hlocal]
  refine ⟨h1, ?_⟩
  intro n
  induction n with
  | zero => exact ⟨rfl, by simp [ensureLocalN]⟩
  | succ k ih =>
    have : ensureLocalN P (k + 1) w = (w, 0) := by
      simp only [ensureLocalN, h1]
      rw [ih.1]
      simp
    exact ⟨this, by simp [this]⟩

/-- Witness for C8: a filesystem where the single candidate path holds the
metadata file; three consecutive `ensure_local` calls download nothing. -/
theorem C8_ensure_local_idempotent_witness :
    existsLocal ⟨["/r"], id⟩ ⟨[("/r/info.yml", .yamlOk (.vdata 1))]⟩ = true ∧
    ensureLocal ⟨["/r"], id⟩ ⟨[("/r/info.yml", .yamlOk (.vdata 1))]⟩ =
      (⟨[("/r/info.yml", .yamlOk (.vdata 1))]⟩, 0) ∧
    ensureLocalN ⟨["/r"], id⟩ 3 ⟨[("/r/info.yml", .yamlOk (.vdata 1))]⟩ =
      (⟨[("/r/info.yml", .yamlOk (.vdata 1))]⟩, 0) :=
  ⟨rfl,
   (C8_ensure_local_idempotent ⟨["/r"], id⟩ ⟨[("/r/info.yml", .yamlOk (.vdata 1))]⟩ rfl).1,
   ((C8_ensure_local_idempotent ⟨["/r"], id⟩ ⟨[("/r/info.yml", .yamlOk (.vdata 1))]⟩ rfl).2 3).1⟩

/-- Claim C10: `None` is the not-yet-loaded sentinel of the manifest
cache, so a parse result of YAML null is never effectively memoized: when
`get_manifest` returns `None` the state is left equal to the prior (still
unloaded) state, and a subsequent call re-runs the full load — shown
concretely by a second call on a filesystem whose file now parses to a
different value returning that new value. -/
theorem C10_none_result_not_memoized :
    (∀ (P : Provider) (w : World) (s s' : DState) (w' : World),
      getManifest P w s = (.ok .vnone, s', w') → s' = s) ∧
    getManifest ⟨["/r"], id⟩ ⟨[("/r/info.yml", .yamlOk .vnone)]⟩ initialDState =
      (.ok .vnone, initialDState, ⟨[("/r/info.yml", .yamlOk .vnone)]⟩) ∧
    getManifest ⟨["/r"], id⟩ ⟨[("/r/info.yml", .yamlOk (.vdata 5))]⟩ initialDState =
      (.ok (.vdata 5), ⟨.vdata 5⟩, ⟨[("/r/info.yml", .yamlOk (.vdata 5))]⟩) := by
  refine ⟨?_, rfl, rfl⟩
  intro P w s s' w' hcall
  have h1 : s'.manifestData = .vnone := getManifest_ok_state P w s _ s' w' hcall
  have h2 : s.manifestData = .vnone := getManifest_ok_vnone_source P w s s' w' hcall
  cases s; cases s'
  simp_all

end TkCore
